import Mathlib

/-!
Verification development for the alphaforge temporal-correctness and caching
core.  Each section shallowly embeds one subsystem of the source tree
(`src/alphaforge/...`) as executable Lean definitions and proves the spec's
claims about it.

Conventions used throughout:
* instants (`asof_utc`, `obs_date`, grid timestamps) are modelled as integers
  in a fixed (UTC) scale; the pandas tz-normalisation helpers `to_utc_naive` /
  `to_utc_aware` are identities in this scale and are not repeated here;
* float `DOUBLE` values are modelled as `Rat` (no arithmetic is performed on
  stored values, only storage and retrieval);
* pandas `NaN` cells are modelled as `Option` with `none` for missing.
-/

instance {ε α : Type} [DecidableEq ε] [DecidableEq α] :
    DecidableEq (Except ε α) := fun x y =>
  match x, y with
  | .error a, .error b =>
    if h : a = b then .isTrue (congrArg Except.error h)
    else .isFalse (fun hc => h (Except.error.inj hc))
  | .error _, .ok _ => .isFalse (fun hc => Except.noConfusion hc)
  | .ok _, .error _ => .isFalse (fun hc => Except.noConfusion hc)
  | .ok a, .ok b =>
    if h : a = b then .isTrue (congrArg Except.ok h)
    else .isFalse (fun hc => h (Except.ok.inj hc))

namespace PIT

/-- One stored row of the `pit_observations` table
(`src/alphaforge/pit/accessor.py`, `ensure_pit_table`).  The natural key is
`(series_key, obs_date, asof_utc)`; the remaining columns are the payload that
an upsert overwrites on conflict.  Optional TEXT/TIMESTAMP columns are
`Option`-valued (SQL `NULL`). -/
structure Row where
  series_key : String
  obs_date : Int
  asof_utc : Int
  value : Rat
  release_time_utc : Option Int
  revision_id : Option String
  source : Option String
  meta_json : Option String
  ingested_utc : Int
  deriving DecidableEq, Repr

/-- The natural key `(series_key, obs_date, asof_utc)` declared `UNIQUE` by
`ensure_pit_table`. -/
def natKey (r : Row) : String × Int × Int :=
  (r.series_key, r.obs_date, r.asof_utc)

/-- The table invariant enforced by the `UNIQUE(series_key, obs_date, asof_utc)`
constraint: no two stored rows share a natural key. -/
def WFTable (t : List Row) : Prop :=
  t.Pairwise (fun a b => natKey a ≠ natKey b)

instance (t : List Row) : Decidable (WFTable t) := by
  unfold WFTable; infer_instance

/-- `ON CONFLICT ... DO UPDATE SET` payload: keep the conflicting stored row's
natural key and overwrite `value`, `release_time_utc`, `revision_id`, `source`,
`meta_json`, `ingested_utc` with the excluded (incoming) row's fields
(`PITAccessor.upsert_pit_observations`). -/
def overwrite (stored incoming : Row) : Row :=
  { stored with
    value := incoming.value
    release_time_utc := incoming.release_time_utc
    revision_id := incoming.revision_id
    source := incoming.source
    meta_json := incoming.meta_json
    ingested_utc := incoming.ingested_utc }

/-- Insert-or-update of a single incoming row, the per-row semantics of the
DuckDB `INSERT ... ON CONFLICT(series_key, obs_date, asof_utc) DO UPDATE`
statement: a conflicting stored row is updated in place, otherwise the row is
appended. -/
def upsertRow (t : List Row) (r : Row) : List Row :=
  if t.any (fun s => natKey s = natKey r) then
    t.map (fun s => if natKey s = natKey r then overwrite s r else s)
  else
    t ++ [r]

/-- `PITAccessor.upsert_pit_observations`: the incoming batch (already
normalised, with required columns present and `ingested_utc` defaulted) is
applied row by row.  Rows later in the batch win over earlier conflicting
rows, matching per-statement sequential conflict resolution. -/
def upsert_pit_observations (t : List Row) (batch : List Row) : List Row :=
  batch.foldl upsertRow t

/-- WHERE clause of the snapshot query in `PITAccessor.get_snapshot`:
`series_key = ? AND asof_utc <= ?` plus the optional
`obs_date >= start` / `obs_date <= end` filters. -/
def snapQualifies (key : String) (asof : Int) (start? end? : Option Int)
    (r : Row) : Bool :=
  r.series_key = key && r.asof_utc ≤ asof &&
    (match start? with | none => true | some s => s ≤ r.obs_date) &&
    (match end? with | none => true | some e => r.obs_date ≤ e)

/-- Insert an integer into a strictly ascending list, keeping it strictly
ascending and duplicate-free (used to model the distinct `obs_date` groups in
ascending `ORDER BY obs_date` order). -/
def insertAsc (d : Int) : List Int → List Int
  | [] => [d]
  | x :: xs =>
    if d < x then d :: x :: xs
    else if d = x then x :: xs
    else x :: insertAsc d xs

/-- The distinct `obs_date` values of a row list, sorted ascending. -/
def obsDatesAsc (rows : List Row) : List Int :=
  rows.foldl (fun acc r => insertAsc r.obs_date acc) []

/-- `ROW_NUMBER() OVER (PARTITION BY obs_date ORDER BY asof_utc DESC)` with
`rn = 1`: of the rows in one partition, the one with the maximal `asof_utc`
(ties kept leftmost; under `WFTable` ties cannot occur inside a partition). -/
def maxAsofRow : List Row → Option Row
  | [] => none
  | r :: rs => some (rs.foldl (fun a b => if a.asof_utc < b.asof_utc then b else a) r)

/-- `PITAccessor.get_snapshot` (method `latest_leq`): for every observation
period passing the filters, the value whose `as_of_instant` is maximal among
those not exceeding the query's as-of instant, ordered ascending by
`obs_date`. -/
def get_snapshot (t : List Row) (key : String) (asof : Int)
    (start? end? : Option Int) : List (Int × Rat) :=
  let rows := t.filter (snapQualifies key asof start? end?)
  (obsDatesAsc rows).filterMap (fun d =>
    (maxAsofRow (rows.filter (fun r => r.obs_date = d))).map (fun r => (d, r.value)))

theorem mem_insertAsc {a d : Int} {l : List Int} :
    a ∈ insertAsc d l ↔ a = d ∨ a ∈ l := by
  induction l with
  | nil => simp [insertAsc]
  | cons x xs ih =>
    by_cases h1 : d < x
    · simp [insertAsc, h1]
    · by_cases h2 : d = x
      · subst h2
        simp only [insertAsc, h1, if_neg, if_pos rfl]
        constructor
        · intro h; exact Or.inr h
        · rintro (rfl | h) <;> simp_all
      · simp only [insertAsc, if_neg h1, if_neg h2, List.mem_cons, ih]
        tauto

theorem pairwise_insertAsc {d : Int} {l : List Int}
    (h : l.Pairwise (· < ·)) : (insertAsc d l).Pairwise (· < ·) := by
  induction l with
  | nil => simp [insertAsc]
  | cons x xs ih =>
    rcases List.pairwise_cons.mp h with ⟨hx, hxs⟩
    by_cases h1 : d < x
    · simp only [insertAsc, if_pos h1]
      refine List.pairwise_cons.mpr ⟨?_, h⟩
      intro y hy
      rcases List.mem_cons.mp hy with rfl | hy
      · exact h1
      · exact lt_trans h1 (hx y hy)
    · by_cases h2 : d = x
      · subst h2; simpa [insertAsc, h1] using h
      · simp only [insertAsc, if_neg h1, if_neg h2]
        refine List.pairwise_cons.mpr ⟨?_, ih hxs⟩
        intro y hy
        rcases mem_insertAsc.mp hy with rfl | hy
        · omega
        · exact hx y hy

theorem obsDatesAsc_aux_pairwise (rows : List Row) (acc : List Int)
    (hacc : acc.Pairwise (· < ·)) :
    (rows.foldl (fun acc r => insertAsc r.obs_date acc) acc).Pairwise (· < ·) := by
  induction rows generalizing acc with
  | nil => simpa using hacc
  | cons r rs ih => exact ih _ (pairwise_insertAsc hacc)

theorem mem_obsDatesAsc_aux (rows : List Row) (acc : List Int) (d : Int) :
    d ∈ rows.foldl (fun acc r => insertAsc r.obs_date acc) acc ↔
      d ∈ acc ∨ ∃ r ∈ rows, r.obs_date = d := by
  induction rows generalizing acc with
  | nil => simp
  | cons r rs ih =>
    simp only [List.foldl_cons, ih, mem_insertAsc, List.mem_cons]
    constructor
    · rintro ((rfl | h) | ⟨s, hs, rfl⟩)
      · exact Or.inr ⟨r, Or.inl rfl, rfl⟩
      · exact Or.inl h
      · exact Or.inr ⟨s, Or.inr hs, rfl⟩
    · rintro (h | ⟨s, rfl | hs, rfl⟩)
      · exact Or.inl (Or.inr h)
      · exact Or.inl (Or.inl rfl)
      · exact Or.inr ⟨s, hs, rfl⟩

theorem obsDatesAsc_pairwise (rows : List Row) :
    (obsDatesAsc rows).Pairwise (· < ·) :=
  obsDatesAsc_aux_pairwise rows [] (List.Pairwise.nil)

theorem mem_obsDatesAsc {rows : List Row} {d : Int} :
    d ∈ obsDatesAsc rows ↔ ∃ r ∈ rows, r.obs_date = d := by
  simpa using mem_obsDatesAsc_aux rows [] d

theorem foldl_pickMax_spec (xs : List Row) (a : Row) :
    let m := xs.foldl (fun a b => if a.asof_utc < b.asof_utc then b else a) a
    (m = a ∨ m ∈ xs) ∧ a.asof_utc ≤ m.asof_utc ∧
      ∀ s ∈ xs, s.asof_utc ≤ m.asof_utc := by
  induction xs generalizing a with
  | nil => simp
  | cons x xs ih =>
    simp only [List.foldl_cons, List.mem_cons]
    by_cases h : a.asof_utc < x.asof_utc
    · simp only [if_pos h]
      obtain ⟨hm, hle, hall⟩ := ih x
      refine ⟨?_, le_trans (le_of_lt h) hle, ?_⟩
      · rcases hm with hm | hm
        · exact Or.inr (Or.inl hm)
        · exact Or.inr (Or.inr hm)
      · rintro s (hs | hs)
        · rw [hs]; exact hle
        · exact hall s hs
    · simp only [if_neg h]
      obtain ⟨hm, hle, hall⟩ := ih a
      refine ⟨?_, hle, ?_⟩
      · rcases hm with hm | hm
        · exact Or.inl hm
        · exact Or.inr (Or.inr hm)
      · rintro s (hs | hs)
        · rw [hs]; omega
        · exact hall s hs

theorem maxAsofRow_spec {l : List Row} {r : Row} (h : maxAsofRow l = some r) :
    r ∈ l ∧ ∀ s ∈ l, s.asof_utc ≤ r.asof_utc := by
  match l, h with
  | x :: xs, h =>
    simp only [maxAsofRow, Option.some.injEq] at h
    obtain ⟨hm, hle, hall⟩ := foldl_pickMax_spec xs x
    subst h
    constructor
    · rcases hm with hm | hm
      · rw [hm]; exact List.mem_cons_self _ _
      · exact List.mem_cons_of_mem _ hm
    · intro s hs
      rcases List.mem_cons.mp hs with hs | hs
      · rw [hs]; exact hle
      · exact hall s hs

theorem maxAsofRow_isSome {l : List Row} (h : l ≠ []) :
    ∃ r, maxAsofRow l = some r := by
  match l, h with
  | x :: xs, _ => exact ⟨_, rfl⟩

theorem WFTable.eq_of_natKey {t : List Row} (h : WFTable t) {a b : Row}
    (ha : a ∈ t) (hb : b ∈ t) (hk : natKey a = natKey b) : a = b := by
  induction t with
  | nil => cases ha
  | cons x xs ih =>
    rcases List.pairwise_cons.mp h with ⟨hx, hxs⟩
    rcases List.mem_cons.mp ha with ha1 | ha2
    · rcases List.mem_cons.mp hb with hb1 | hb2
      · rw [ha1, hb1]
      · subst ha1; exact absurd hk (hx b hb2)
    · rcases List.mem_cons.mp hb with hb1 | hb2
      · subst hb1; exact absurd hk.symm (hx a ha2)
      · exact ih hxs ha2 hb2

/-- What the spec requires of one snapshot entry: a qualifying stored row for
that period whose as-of instant is maximal among all qualifying rows for the
same period. -/
def SnapshotWitnessRow (t : List Row) (key : String) (asof : Int)
    (start? end? : Option Int) (d : Int) (v : Rat) : Prop :=
  ∃ r ∈ t, snapQualifies key asof start? end? r = true ∧ r.obs_date = d ∧
    r.value = v ∧
    ∀ s ∈ t, snapQualifies key asof start? end? s = true → s.obs_date = d →
      s.asof_utc ≤ r.asof_utc

/-- C1. PIT snapshot correctness: under the table's natural-key uniqueness
invariant, `get_snapshot` returns, for each observation period passing the
optional `[start, end]` restriction, exactly the value of the row whose
`as_of_instant` is maximal among those not exceeding the query's as-of
instant; periods with no qualifying row are excluded; the result is strictly
ascending in observation period end (and empty when nothing qualifies, never
an error). -/
theorem C1_pit_snapshot_correct (t : List Row) (key : String) (asof : Int)
    (start? end? : Option Int) (hwf : WFTable t) :
    (get_snapshot t key asof start? end?).Pairwise (fun a b => a.1 < b.1) ∧
      ∀ d v, (d, v) ∈ get_snapshot t key asof start? end? ↔
        SnapshotWitnessRow t key asof start? end? d v := by
  set Q := snapQualifies key asof start? end? with hQ
  set rows := t.filter Q with hrows
  have hmemrows : ∀ r, r ∈ rows ↔ r ∈ t ∧ Q r = true := by
    intro r; simp [hrows, List.mem_filter]
  constructor
  · -- ascending: obs dates are strictly sorted and the filterMap preserves them
    refine List.pairwise_filterMap.mpr ?_
    refine (obsDatesAsc_pairwise rows).imp ?_
    intro d d' hdd' p hp q hq
    rw [Option.mem_def, Option.map_eq_some'] at hp hq
    obtain ⟨r, _, hpr⟩ := hp
    obtain ⟨s, _, hqs⟩ := hq
    rw [← hpr, ← hqs]
    simpa using hdd'
  · intro d v
    constructor
    · intro hmem
      obtain ⟨d', hd', hf⟩ := List.mem_filterMap.mp hmem
      simp only [Option.map_eq_some'] at hf
      obtain ⟨r, hr, heq⟩ := hf
      have hd'd : d' = d := congrArg Prod.fst heq
      have hv : r.value = v := congrArg Prod.snd heq
      rw [hd'd] at hr
      rw [← hv]
      obtain ⟨hrmem, hrmax⟩ := maxAsofRow_spec hr
      have h1 := List.mem_filter.mp hrmem
      have hrrows : r ∈ rows ∧ r.obs_date = d := ⟨h1.1, by simpa using h1.2⟩
      obtain ⟨hrt, hrq⟩ := (hmemrows r).mp hrrows.1
      refine ⟨r, hrt, hrq, hrrows.2, rfl, ?_⟩
      intro s hs hsq hsd
      have : s ∈ rows.filter (fun r => r.obs_date = d) := by
        simp only [List.mem_filter]
        exact ⟨(hmemrows s).mpr ⟨hs, hsq⟩, by simpa using hsd⟩
      exact hrmax s this
    · rintro ⟨r, hrt, hrq, hrd, hrv, hrmax⟩
      have hrrows : r ∈ rows := (hmemrows r).mpr ⟨hrt, hrq⟩
      have hd : d ∈ obsDatesAsc rows := mem_obsDatesAsc.mpr ⟨r, hrrows, hrd⟩
      have hne : rows.filter (fun r => r.obs_date = d) ≠ [] := by
        intro hnil
        have : r ∈ rows.filter (fun r => r.obs_date = d) := by
          simp only [List.mem_filter]
          exact ⟨hrrows, by simpa using hrd⟩
        rw [hnil] at this
        cases this
      obtain ⟨m, hm⟩ := maxAsofRow_isSome hne
      obtain ⟨hmmem, hmmax⟩ := maxAsofRow_spec hm
      have h2 := List.mem_filter.mp hmmem
      have hmrows : m ∈ rows ∧ m.obs_date = d := ⟨h2.1, by simpa using h2.2⟩
      obtain ⟨hmt, hmq⟩ := (hmemrows m).mp hmrows.1
      -- the maximal rows coincide: equal as-of forces equal natural key
      have hasof : m.asof_utc = r.asof_utc := by
        have h1 : m.asof_utc ≤ r.asof_utc := hrmax m hmt hmq hmrows.2
        have h2 : r.asof_utc ≤ m.asof_utc := by
          refine hmmax r ?_
          simp only [List.mem_filter]
          exact ⟨hrrows, by simpa using hrd⟩
        omega
      have hkeys : natKey m = natKey r := by
        have hms : m.series_key = key := by
          simp only [hQ, snapQualifies, Bool.and_eq_true, decide_eq_true_eq] at hmq
          exact hmq.1.1.1
        have hrs : r.series_key = key := by
          simp only [hQ, snapQualifies, Bool.and_eq_true, decide_eq_true_eq] at hrq
          exact hrq.1.1.1
        simp [natKey, hms, hrs, hasof, hmrows.2, hrd]
      have : m = r := hwf.eq_of_natKey hmt hrt hkeys
      subst this
      refine List.mem_filterMap.mpr ⟨d, hd, ?_⟩
      rw [hm]
      simp [hrv]

/-- The spec's own snapshot example: period `2024-12-31` revised at
`2025-01-10 → 1.0` and `2025-02-10 → 1.1` (instants encoded as `YYYYMMDD`
integers, values as rationals). -/
def pitExample : List Row :=
  upsert_pit_observations []
    [⟨"GDP", 20241231, 20250110, 1, none, none, some "alfred", none, 0⟩,
     ⟨"GDP", 20241231, 20250210, mkRat 11 10, none, none, some "alfred", none, 0⟩]

/-- C1 witness: the invariant holds for the spec's example table, the theorem
applies, and the snapshot evaluates to `1.0` as of `2025-01-15` and `1.1` as
of `2025-03-01`. -/
theorem C1_pit_snapshot_correct_witness :
    WFTable pitExample ∧
      ((get_snapshot pitExample "GDP" 20250115 none none).Pairwise
          (fun a b => a.1 < b.1) ∧
        ∀ d v, (d, v) ∈ get_snapshot pitExample "GDP" 20250115 none none ↔
          SnapshotWitnessRow pitExample "GDP" 20250115 none none d v) ∧
      get_snapshot pitExample "GDP" 20250115 none none = [(20241231, 1)] ∧
      get_snapshot pitExample "GDP" 20250301 none none = [(20241231, mkRat 11 10)] :=
  ⟨by decide,
   C1_pit_snapshot_correct pitExample "GDP" 20250115 none none (by decide),
   by decide, by decide⟩

theorem natKey_overwrite (s r : Row) : natKey (overwrite s r) = natKey s := rfl

theorem overwrite_self (r : Row) : overwrite r r = r := rfl

theorem overwrite_congr {a b : Row} (r : Row) (h : natKey a = natKey b) :
    overwrite a r = overwrite b r := by
  cases a; cases b
  simp only [natKey, Prod.mk.injEq] at h
  simp [overwrite, h.1, h.2.1, h.2.2]

/-- Membership of a natural key among the stored rows' keys. -/
def hasKey (t : List Row) (k : String × Int × Int) : Prop :=
  k ∈ t.map natKey

instance (t : List Row) (k : String × Int × Int) : Decidable (hasKey t k) := by
  unfold hasKey; infer_instance

theorem any_natKey_iff {t : List Row} {r : Row} :
    t.any (fun s => natKey s = natKey r) = true ↔ hasKey t (natKey r) := by
  rw [List.any_eq_true]
  unfold hasKey
  rw [List.mem_map]
  constructor
  · rintro ⟨s, hs, h⟩
    exact ⟨s, hs, by simpa using h⟩
  · rintro ⟨s, hs, h⟩
    exact ⟨s, hs, by simpa using h⟩

theorem keys_upsertRow_of_hasKey {t : List Row} {r : Row}
    (h : hasKey t (natKey r)) :
    (upsertRow t r).map natKey = t.map natKey := by
  rw [upsertRow, if_pos (any_natKey_iff.mpr h), List.map_map]
  refine List.map_congr_left ?_
  intro a _
  by_cases hk : natKey a = natKey r <;> simp [Function.comp, hk, natKey_overwrite]

theorem hasKey_upsertRow {t : List Row} {r : Row} {k : String × Int × Int}
    (h : hasKey t k) : hasKey (upsertRow t r) k := by
  by_cases hp : hasKey t (natKey r)
  · rwa [hasKey, keys_upsertRow_of_hasKey hp]
  · rw [upsertRow, if_neg ?_]
    · simp only [hasKey, List.map_append] at h ⊢
      exact List.mem_append_left _ h
    · intro hc
      exact hp (any_natKey_iff.mp hc)

theorem hasKey_upsertRow_self (t : List Row) (r : Row) :
    hasKey (upsertRow t r) (natKey r) := by
  by_cases hp : hasKey t (natKey r)
  · rwa [hasKey, keys_upsertRow_of_hasKey hp]
  · rw [upsertRow, if_neg ?_]
    · simp [hasKey, List.map_append]
    · intro hc
      exact hp (any_natKey_iff.mp hc)

theorem hasKey_upsert {t : List Row} {b : List Row} {k : String × Int × Int}
    (h : hasKey t k) : hasKey (upsert_pit_observations t b) k := by
  induction b generalizing t with
  | nil => exact h
  | cons s bs ih => exact ih (hasKey_upsertRow h)

theorem hasKey_upsert_of_mem {b : List Row} {r : Row} (hr : r ∈ b)
    (t : List Row) : hasKey (upsert_pit_observations t b) (natKey r) := by
  induction b generalizing t with
  | nil => cases hr
  | cons s bs ih =>
    rcases List.mem_cons.mp hr with h | h
    · rw [h]
      show hasKey (upsert_pit_observations (upsertRow t s) bs) (natKey s)
      exact hasKey_upsert (hasKey_upsertRow_self t s)
    · exact ih h _

/-- Rows that agree on their natural key and are equal away from key `k`: the
simulation relation between a table and the same table after an in-place
conflict update at key `k`. -/
def RowsAgree (k : String × Int × Int) (a b : Row) : Prop :=
  natKey a = natKey b ∧ (natKey a ≠ k → a = b)

theorem forall₂_self_map {l : List Row} {f : Row → Row}
    {R : Row → Row → Prop} (h : ∀ a ∈ l, R a (f a)) :
    List.Forall₂ R l (l.map f) := by
  induction l with
  | nil => simp
  | cons x xs ih =>
    simp only [List.map_cons]
    exact List.Forall₂.cons (h x (List.mem_cons_self x xs))
      (ih fun a ha => h a (List.mem_cons_of_mem _ ha))

theorem rowsAgree_any {k} {xs ys : List Row} (h : List.Forall₂ (RowsAgree k) xs ys)
    (r : Row) :
    xs.any (fun s => natKey s = natKey r) = ys.any (fun s => natKey s = natKey r) := by
  induction h with
  | nil => rfl
  | cons hab _ ih =>
    rename_i a b _ _
    simp only [List.any_cons, hab.1, ih]

theorem rowsAgree_upsertRow {k} {xs ys : List Row}
    (h : List.Forall₂ (RowsAgree k) xs ys) (s : Row) :
    List.Forall₂ (RowsAgree k) (upsertRow xs s) (upsertRow ys s) := by
  by_cases hp : xs.any (fun a => natKey a = natKey s) = true
  · have hq : ys.any (fun a => natKey a = natKey s) = true := by
      rw [← rowsAgree_any h]; exact hp
    rw [upsertRow, if_pos hp, upsertRow, if_pos hq]
    clear hp hq
    induction h with
    | nil => simp
    | cons hab htail ih =>
      rename_i a b _ _
      simp only [List.map_cons]
      refine List.Forall₂.cons ?_ ih
      by_cases hk : natKey a = natKey s
      · rw [if_pos hk, if_pos (hab.1 ▸ hk)]
        have : overwrite a s = overwrite b s := overwrite_congr s hab.1
        exact ⟨by rw [this], fun _ => this⟩
      · rw [if_neg hk, if_neg (fun hc => hk (hab.1 ▸ hc))]
        exact hab
  · have hq : ¬ ys.any (fun a => natKey a = natKey s) = true := by
      rw [← rowsAgree_any h]; exact hp
    rw [upsertRow, if_neg hp, upsertRow, if_neg hq]
    exact List.rel_append h (List.Forall₂.cons ⟨rfl, fun _ => rfl⟩ List.Forall₂.nil)

theorem rowsAgree_upsert {k} {xs ys : List Row}
    (h : List.Forall₂ (RowsAgree k) xs ys) (b : List Row) :
    List.Forall₂ (RowsAgree k) (upsert_pit_observations xs b)
      (upsert_pit_observations ys b) := by
  induction b generalizing xs ys with
  | nil => exact h
  | cons s bs ih => exact ih (rowsAgree_upsertRow h s)

theorem rowsAgree_eq_of_keys {k : String × Int × Int} : ∀ {xs ys : List Row},
    List.Forall₂ (RowsAgree k) xs ys → (∀ a ∈ xs, natKey a ≠ k) → xs = ys := by
  intro xs ys h
  induction h with
  | nil => intro _; rfl
  | cons hab htail ih =>
    rename_i a b l1 l2
    intro hp
    simp only [List.cons.injEq]
    refine ⟨hab.2 (hp a (List.mem_cons_self a l1)), ih ?_⟩
    intro x hx
    exact hp x (List.mem_cons_of_mem _ hx)

theorem rowsAgree_upsertRow_eq {r : Row} {xs ys : List Row}
    (h : List.Forall₂ (RowsAgree (natKey r)) xs ys) :
    upsertRow xs r = upsertRow ys r := by
  by_cases hp : xs.any (fun a => natKey a = natKey r) = true
  · have hq : ys.any (fun a => natKey a = natKey r) = true := by
      rw [← rowsAgree_any h]; exact hp
    rw [upsertRow, if_pos hp, upsertRow, if_pos hq]
    clear hp hq
    induction h with
    | nil => rfl
    | cons hab htail ih =>
      rename_i a b _ _
      simp only [List.map_cons, List.cons.injEq]
      refine ⟨?_, ih⟩
      by_cases hk : natKey a = natKey r
      · rw [if_pos hk, if_pos (hab.1 ▸ hk)]
        exact overwrite_congr r hab.1
      · rw [if_neg hk, if_neg (fun hc => hk (hab.1 ▸ hc))]
        exact hab.2 hk
  · have hq : ¬ ys.any (fun a => natKey a = natKey r) = true := by
      rw [← rowsAgree_any h]; exact hp
    have hxy : xs = ys := by
      refine rowsAgree_eq_of_keys h ?_
      intro a ha hc
      refine hp ?_
      rw [List.any_eq_true]
      exact ⟨a, ha, by simpa using hc⟩
    rw [hxy]

theorem upsertRow_append_last {xs : List Row} {r s : Row}
    (hs : xs.any (fun a => natKey a = natKey s) = true)
    (hne : natKey r ≠ natKey s) :
    upsertRow (xs ++ [r]) s = upsertRow xs s ++ [r] := by
  have hp : (xs ++ [r]).any (fun a => natKey a = natKey s) = true := by
    simp only [List.any_append, Bool.or_eq_true]
    exact Or.inl hs
  rw [upsertRow, if_pos hp, upsertRow, if_pos hs, List.map_append]
  simp [hne]

theorem upsert_append_absorb {bs : List Row} {xs : List Row} {r : Row}
    (H : ∀ s ∈ bs, hasKey xs (natKey s)) (hr : ¬ hasKey xs (natKey r)) :
    upsert_pit_observations (xs ++ [r]) bs = upsert_pit_observations xs bs ++ [r] := by
  induction bs generalizing xs with
  | nil => rfl
  | cons s bs ih =>
    have hsx : hasKey xs (natKey s) := H s (List.mem_cons_self s bs)
    have hne : natKey r ≠ natKey s := by
      intro hc
      exact hr (hc ▸ hsx)
    show upsert_pit_observations (upsertRow (xs ++ [r]) s) bs =
      upsert_pit_observations (upsertRow xs s) bs ++ [r]
    rw [upsertRow_append_last (any_natKey_iff.mpr hsx) hne]
    refine ih ?_ ?_
    · intro u hu
      rw [hasKey, keys_upsertRow_of_hasKey hsx]
      exact H u (List.mem_cons_of_mem _ hu)
    · rw [hasKey, keys_upsertRow_of_hasKey hsx]
      exact hr

theorem upsert_twice (b : List Row) :
    ∀ t, upsert_pit_observations (upsert_pit_observations t b) b =
      upsert_pit_observations t b := by
  induction b using List.reverseRecOn with
  | nil => intro t; rfl
  | append_singleton bs r ih =>
    intro t
    have hsplit : ∀ u, upsert_pit_observations u (bs ++ [r]) =
        upsertRow (upsert_pit_observations u bs) r := by
      intro u
      simp [upsert_pit_observations, List.foldl_append]
    rw [hsplit t]
    by_cases hp : hasKey (upsert_pit_observations t bs) (natKey r)
    · -- conflict case: the second pass replays in-place updates only
      have hrel0 : List.Forall₂ (RowsAgree (natKey r))
          (upsert_pit_observations t bs)
          (upsertRow (upsert_pit_observations t bs) r) := by
        rw [upsertRow, if_pos (any_natKey_iff.mpr hp)]
        refine forall₂_self_map ?_
        intro a _
        by_cases hk : natKey a = natKey r
        · rw [if_pos hk]
          exact ⟨(natKey_overwrite a r).symm, fun hne => absurd hk hne⟩
        · rw [if_neg hk]
          exact ⟨rfl, fun _ => rfl⟩
      have hrel1 := rowsAgree_upsert hrel0 bs
      rw [ih t] at hrel1
      rw [hsplit]
      exact (rowsAgree_upsertRow_eq hrel1).symm
    · -- fresh-key case: the appended row is untouched by the replayed batch
      have happ : upsertRow (upsert_pit_observations t bs) r =
          upsert_pit_observations t bs ++ [r] := by
        rw [upsertRow, if_neg ?_]
        intro hc
        exact hp (any_natKey_iff.mp hc)
      have H : ∀ s ∈ bs, hasKey (upsert_pit_observations t bs) (natKey s) :=
        fun s hs => hasKey_upsert_of_mem hs t
      rw [hsplit, happ, upsert_append_absorb H hp, ih t]
      rw [upsertRow, if_pos ?_]
      · rw [List.map_append]
        have h1 : (upsert_pit_observations t bs).map
            (fun s => if natKey s = natKey r then overwrite s r else s) =
            upsert_pit_observations t bs := by
          refine (List.map_congr_left ?_).trans (List.map_id _)
          intro a ha
          show (if natKey a = natKey r then overwrite a r else a) = a
          rw [if_neg ?_]
          intro hc
          exact hp (hc ▸ List.mem_map_of_mem natKey ha)
        have h2 : [r].map (fun s => if natKey s = natKey r then overwrite s r else s) = [r] := by
          simp [overwrite_self]
        rw [h1, h2]
      · simp only [List.any_append, Bool.or_eq_true]
        exact Or.inr (by simp)

theorem WFTable_upsertRow {t : List Row} (h : WFTable t) (r : Row) :
    WFTable (upsertRow t r) := by
  by_cases hp : t.any (fun s => natKey s = natKey r) = true
  · rw [upsertRow, if_pos hp]
    rw [WFTable, List.pairwise_map]
    refine h.imp ?_
    intro a b hab
    by_cases hk1 : natKey a = natKey r <;> by_cases hk2 : natKey b = natKey r
    · exact absurd (hk1.trans hk2.symm) hab
    · simp only [if_pos hk1, if_neg hk2, natKey_overwrite]
      exact hab
    · simp only [if_neg hk1, if_pos hk2, natKey_overwrite]
      exact hab
    · simp only [if_neg hk1, if_neg hk2]
      exact hab
  · rw [upsertRow, if_neg hp]
    rw [WFTable, List.pairwise_append]
    refine ⟨h, List.pairwise_singleton _ _, ?_⟩
    intro a ha b hb
    simp only [List.mem_singleton] at hb
    subst hb
    intro hc
    rw [List.any_eq_true] at hp
    exact hp ⟨a, ha, by simpa using hc⟩

theorem WFTable_upsert {t : List Row} (h : WFTable t) (b : List Row) :
    WFTable (upsert_pit_observations t b) := by
  induction b generalizing t with
  | nil => exact h
  | cons s bs ih => exact ih (WFTable_upsertRow h s)

/-- C2. PIT upsert idempotence: re-applying the same batch leaves the stored
rows unchanged — in particular the row count is stable, the natural key
`(series_key, observation_period_end, as_of_instant)` stays unique, and the
second application only overwrites the value/metadata fields of conflicting
rows in place (never inserts).  The uniqueness hypothesis on the batch mirrors
DuckDB's restriction that one statement may not update the same target row
twice. -/
theorem C2_pit_upsert_idempotent (t b : List Row) (hwf : WFTable t) :
    upsert_pit_observations (upsert_pit_observations t b) b =
      upsert_pit_observations t b ∧
    (upsert_pit_observations (upsert_pit_observations t b) b).length =
      (upsert_pit_observations t b).length ∧
    WFTable (upsert_pit_observations t b) :=
  ⟨upsert_twice b t, congrArg List.length (upsert_twice b t), WFTable_upsert hwf b⟩

/-- C2 witness: the duplicate-upsert test's shape — upserting a concrete batch
twice leaves the two stored rows intact, with the key unique. -/
theorem C2_pit_upsert_idempotent_witness :
    WFTable [] ∧
      (upsert_pit_observations (upsert_pit_observations [] pitExample) pitExample =
          upsert_pit_observations [] pitExample ∧
        (upsert_pit_observations (upsert_pit_observations [] pitExample) pitExample).length =
          (upsert_pit_observations [] pitExample).length ∧
        WFTable (upsert_pit_observations [] pitExample)) ∧
      (upsert_pit_observations (upsert_pit_observations [] pitExample) pitExample).length = 2 :=
  ⟨by decide, C2_pit_upsert_idempotent [] pitExample (by decide), by decide⟩

end PIT

namespace Mat

/-!
Embedding of `materialize` (`src/alphaforge/features/ops.py`) together with
the collaborators it touches: the external store's `get_frame` / `put_frame` /
`put_state` (`tests/conftest.py` `MemoryStore` contract, spec §6) and the
`FeatureTemplate` protocol's `fit` / `transform`
(`src/alphaforge/features/template.py`).  The optional lineage graph is the
default `None` here; Python exceptions are `Except` values; a template's
run-time behaviour for a fixed realization is captured by the outcome of its
`fit` call and its `transform` as a function of the state passed in.  The
outcome record additionally logs how often each stage ran and which store
writes happened, so that call-count and frame-effect claims are statable. -/

/-- A `FeatureFrame` as far as `materialize` observes it: an opaque payload,
the metadata dict that `materialize` stamps, and the outcome of
`frame.validate()` (which raises on an invalid index shape). -/
structure Frame where
  payload : Nat
  meta : List (String × String)
  valid : Bool
  deriving DecidableEq, Repr

/-- Opaque fit state (the pickled payload is the state itself here). -/
structure FitState where
  sid : Nat
  deriving DecidableEq, Repr

/-- A template's behaviour at one realization: the result of its `fit` stage
(an exception, or an optional state) and its `transform` stage as a function
of the state it is handed. -/
structure Template where
  fit : Except String (Option FitState)
  transform : Option FitState → Except String Frame

/-- The external artifact store: frames addressed by realization id (newest
binding wins, matching dict overwrite) and persisted fit states. -/
structure Store where
  frames : List (String × Frame)
  states : List FitState
  deriving DecidableEq, Repr

def Store.get_frame (st : Store) (rid : String) : Option Frame :=
  (st.frames.find? (fun p => p.1 = rid)).map (fun p => p.2)

def Store.put_frame (st : Store) (rid : String) (f : Frame) : Store :=
  { st with frames := (rid, f) :: st.frames }

def Store.put_state (st : Store) (s : FitState) : Store :=
  { st with states := s :: st.states }

/-- `MaterializationPolicy` (`src/alphaforge/store/cache.py`). -/
inductive PersistMode
  | never
  | selected
  | always
  deriving DecidableEq, Repr

structure MaterializationPolicy where
  cache_ephemeral : Bool := true
  persist_mode : PersistMode := .selected
  deriving DecidableEq, Repr

/-- Metadata stamping performed after `transform`; only the realization id is
material to the modelled behaviour (the remaining stamped keys — template
identity, params, slice, upstream snapshot — are fields of the id's
realization and are elided). -/
def stamp (f : Frame) (rid : String) : Frame :=
  { f with meta := f.meta ++ [("realization_id", rid)] }

/-- The observable outcome of one `materialize` call: its return value (or
propagated exception), the store afterwards, how often `fit` / `transform`
ran, and the `put_frame` / `put_state` writes that were issued. -/
structure MatOutcome where
  result : Except String Frame
  store : Store
  fitCalls : Nat
  transformCalls : Nat
  framePuts : List (String × Frame)
  statePuts : List FitState
  deriving Repr

/-- `try: st = template.fit(...) except Exception: st = None` — the swallowed
fit stage: an exception is demoted to "no state produced". -/
def fitStateOf (tmpl : Template) : Option FitState :=
  match tmpl.fit with
  | .error _ => none
  | .ok s => s

/-- The `put_state` write issued when the (swallowed) fit produced a state. -/
def statePutsOf (tmpl : Template) : List FitState :=
  match fitStateOf tmpl with
  | some s => [s]
  | none => []

/-- The store after the optional `put_state` of the fit state. -/
def storeAfterFit (store : Store) (tmpl : Template) : Store :=
  match fitStateOf tmpl with
  | some s => store.put_state s
  | none => store

/-- The cache-miss path of `materialize`: run the swallowed `fit`, persist a
non-`None` state, run `transform` with the state (exceptions propagate),
stamp the frame's metadata, `validate()` it (exceptions propagate), then
`put_frame` iff the persist mode is `always`. -/
def materializeMiss (store : Store) (tmpl : Template) (rid : String)
    (policy : MaterializationPolicy) : MatOutcome :=
  match tmpl.transform (fitStateOf tmpl) with
  | .error e => ⟨.error e, storeAfterFit store tmpl, 1, 1, [], statePutsOf tmpl⟩
  | .ok f0 =>
    let f := stamp f0 rid
    if f.valid then
      match policy.persist_mode with
      | .always => ⟨.ok f, (storeAfterFit store tmpl).put_frame rid f, 1, 1,
          [(rid, f)], statePutsOf tmpl⟩
      | _ => ⟨.ok f, storeAfterFit store tmpl, 1, 1, [], statePutsOf tmpl⟩
    else ⟨.error "FeatureFrame failed validation", storeAfterFit store tmpl,
      1, 1, [], statePutsOf tmpl⟩

/-- `materialize(ctx, template, realization, policy)` with `lineage = None`:
query the store under the realization's fingerprint id and return a hit
unconditionally (no fit, no transform, no write); otherwise take the
cache-miss path. -/
def materialize (store : Store) (tmpl : Template) (rid : String)
    (policy : MaterializationPolicy) : MatOutcome :=
  match store.get_frame rid with
  | some f => ⟨.ok f, store, 0, 0, [], []⟩
  | none => materializeMiss store tmpl rid policy

theorem get_frame_put_frame (st : Store) (rid : String) (f : Frame) :
    (st.put_frame rid f).get_frame rid = some f := by
  simp [Store.get_frame, Store.put_frame, List.find?]

theorem get_frame_put_state (st : Store) (rid : String) (s : FitState) :
    (st.put_state s).get_frame rid = st.get_frame rid := rfl

/-- C3. Cache hit suppresses recomputation: a stored result under the
realization's fingerprint id is returned unconditionally with neither `fit`
nor `transform` invoked and no store write; consequently, on a cold cache, a
successful materialization followed by a second one under
`persist_mode = always` invokes `transform` exactly once across the two
calls. -/
theorem C3_cache_hit_suppresses_recompute (store : Store) (tmpl : Template)
    (rid : String) :
    (∀ policy f, store.get_frame rid = some f →
      materialize store tmpl rid policy =
        ⟨.ok f, store, 0, 0, [], []⟩) ∧
    (∀ f, store.get_frame rid = none →
      (materialize store tmpl rid ⟨true, .always⟩).result = .ok f →
      (materialize store tmpl rid ⟨true, .always⟩).transformCalls +
        (materialize (materialize store tmpl rid ⟨true, .always⟩).store
          tmpl rid ⟨true, .always⟩).transformCalls = 1) := by
  constructor
  · intro policy f hhit
    simp only [materialize, hhit]
  · intro f hmiss hok
    simp only [materialize, hmiss] at hok ⊢
    rcases htr : tmpl.transform (fitStateOf tmpl) with e | f0
    · simp only [materializeMiss, htr] at hok
      exact absurd hok (by simp)
    · simp only [materializeMiss, htr] at hok ⊢
      by_cases hv : (stamp f0 rid).valid
      · simp only [hv, if_true] at hok ⊢
        simp [materialize, get_frame_put_frame]
      · rw [if_neg hv] at hok
        exact absurd hok (by simp)

/-- Concrete cold store / succeeding template used to witness the cache
claims. -/
def storeEmpty : Store := ⟨[], []⟩

def frameOk : Frame := ⟨7, [], true⟩

def tmplOk : Template :=
  ⟨.ok (some ⟨3⟩), fun _ => .ok frameOk⟩

/-- C3 witness: on an empty store the first materialization succeeds and the
transform runs exactly once across two consecutive calls with
`persist_mode = always`. -/
theorem C3_cache_hit_suppresses_recompute_witness :
    storeEmpty.get_frame "t:1:abc" = none ∧
      (materialize storeEmpty tmplOk "t:1:abc" ⟨true, .always⟩).result =
        .ok (stamp frameOk "t:1:abc") ∧
      (materialize storeEmpty tmplOk "t:1:abc" ⟨true, .always⟩).transformCalls +
        (materialize (materialize storeEmpty tmplOk "t:1:abc" ⟨true, .always⟩).store
          tmplOk "t:1:abc" ⟨true, .always⟩).transformCalls = 1 :=
  ⟨rfl, rfl,
   (C3_cache_hit_suppresses_recompute storeEmpty tmplOk "t:1:abc").2
     (stamp frameOk "t:1:abc") rfl rfl⟩

/-- C8. Materialize error handling: on a cache miss an exception in the
`fit` stage is swallowed — the call behaves exactly as if `fit` had returned
no state, so the exception never propagates — while an exception in the
`transform` stage propagates to the caller as the call's result. -/
theorem C8_materialize_error_handling (store : Store) (tmpl : Template)
    (rid : String) (policy : MaterializationPolicy)
    (hmiss : store.get_frame rid = none) :
    (∀ e, tmpl.fit = .error e →
      materialize store tmpl rid policy =
        materialize store ⟨.ok none, tmpl.transform⟩ rid policy) ∧
    (∀ st e, tmpl.fit = .ok st → tmpl.transform st = .error e →
      (materialize store tmpl rid policy).result = .error e) := by
  constructor
  · intro e hfit
    simp only [materialize, hmiss, materializeMiss, storeAfterFit, statePutsOf,
      fitStateOf, hfit]
  · intro st e hfit htr
    have hst : fitStateOf tmpl = st := by
      simp [fitStateOf, hfit]
    simp only [materialize, hmiss, materializeMiss, hst, htr]

/-- A template whose fit stage raises, for the C8 witness. -/
def tmplFitRaises : Template :=
  ⟨.error "fit blew up", fun _ => .ok frameOk⟩

/-- A template whose transform stage raises, for the C8 witness. -/
def tmplTransformRaises : Template :=
  ⟨.ok none, fun _ => .error "transform blew up"⟩

/-- C8 witness: with a concrete raising fit the call equals the stateless
call (and in particular still returns the transform's frame), and a concrete
raising transform propagates its error. -/
theorem C8_materialize_error_handling_witness :
    storeEmpty.get_frame "t:1:abc" = none ∧
      materialize storeEmpty tmplFitRaises "t:1:abc" ⟨true, .never⟩ =
        materialize storeEmpty ⟨.ok none, tmplFitRaises.transform⟩ "t:1:abc"
          ⟨true, .never⟩ ∧
      (materialize storeEmpty tmplTransformRaises "t:1:abc" ⟨true, .never⟩).result =
        .error "transform blew up" :=
  ⟨rfl,
   (C8_materialize_error_handling storeEmpty tmplFitRaises "t:1:abc"
       ⟨true, .never⟩ rfl).1 "fit blew up" rfl,
   (C8_materialize_error_handling storeEmpty tmplTransformRaises "t:1:abc"
       ⟨true, .never⟩ rfl).2 none "transform blew up" rfl rfl⟩

/-- C10. Frame effect of materialize persistence: on a cache miss,
`put_frame` is issued iff the policy's persist mode is `always` (in
particular `selected` and `never` persist nothing here), while a non-`None`
fit state is written via `put_state` for every persist mode — including
`never` — and even when the transform stage subsequently fails. -/
theorem C10_materialize_persistence_effects (store : Store) (tmpl : Template)
    (rid : String) (policy : MaterializationPolicy)
    (hmiss : store.get_frame rid = none) :
    ((∀ s, tmpl.fit = .ok (some s) →
        (materialize store tmpl rid policy).statePuts = [s] ∧
        (materialize store tmpl rid policy).store.states = s :: store.states) ∧
      (tmpl.fit = .ok none →
        (materialize store tmpl rid policy).statePuts = [])) ∧
    (policy.persist_mode ≠ .always →
      (materialize store tmpl rid policy).framePuts = []) ∧
    (∀ f, policy.persist_mode = .always →
      (materialize store tmpl rid policy).result = .ok f →
      (materialize store tmpl rid policy).framePuts = [(rid, f)]) := by
  refine ⟨⟨?_, ?_⟩, ?_, ?_⟩
  · intro s hfit
    have hst : fitStateOf tmpl = some s := by
      simp [fitStateOf, hfit]
    have hsp : statePutsOf tmpl = [s] := by
      simp [statePutsOf, hst]
    have hsf : storeAfterFit store tmpl = store.put_state s := by
      simp [storeAfterFit, hst]
    simp only [materialize, hmiss, materializeMiss, hst, hsp, hsf]
    rcases htr : tmpl.transform (some s) with e | f0
    · exact ⟨rfl, rfl⟩
    · by_cases hv : (stamp f0 rid).valid
      · rcases policy with ⟨ce, pm⟩
        rcases pm <;> simp [hv, Store.put_frame, Store.put_state]
      · simp [hv, Store.put_state]
  · intro hfit
    have hst : fitStateOf tmpl = none := by
      simp [fitStateOf, hfit]
    have hsp : statePutsOf tmpl = [] := by
      simp [statePutsOf, hst]
    simp only [materialize, hmiss, materializeMiss, hst, hsp]
    rcases htr : tmpl.transform none with e | f0
    · rfl
    · by_cases hv : (stamp f0 rid).valid
      · rcases policy with ⟨ce, pm⟩
        rcases pm <;> simp [hv]
      · simp [hv]
  · intro hpm
    simp only [materialize, hmiss, materializeMiss]
    rcases htr : tmpl.transform (fitStateOf tmpl) with e | f0
    · rfl
    · by_cases hv : (stamp f0 rid).valid
      · rcases policy with ⟨ce, pm⟩
        rcases pm with _ | _ | _
        · simp [hv]
        · simp [hv]
        · exact absurd rfl hpm
      · simp [hv]
  · intro f hpm hok
    rcases policy with ⟨ce, pm⟩
    cases hpm
    simp only [materialize, hmiss, materializeMiss] at hok ⊢
    rcases htr : tmpl.transform (fitStateOf tmpl) with e | f0
    · rw [htr] at hok
      exact absurd hok (by simp)
    · rw [htr] at hok
      by_cases hv : (stamp f0 rid).valid
      · simp only [hv, if_true] at hok ⊢
        simp only [Except.ok.injEq] at hok
        simp [hok]
      · simp [hv] at hok

/-- C10 witness: a fit state is persisted under `persist_mode = never`, and
`put_frame` happens only under `always`. -/
theorem C10_materialize_persistence_effects_witness :
    storeEmpty.get_frame "t:1:abc" = none ∧
      (materialize storeEmpty tmplOk "t:1:abc" ⟨true, .never⟩).statePuts =
        [⟨3⟩] ∧
      (materialize storeEmpty tmplOk "t:1:abc" ⟨true, .never⟩).framePuts = [] ∧
      (materialize storeEmpty tmplOk "t:1:abc" ⟨true, .always⟩).framePuts =
        [("t:1:abc", stamp frameOk "t:1:abc")] :=
  ⟨rfl,
   ((C10_materialize_persistence_effects storeEmpty tmplOk "t:1:abc"
       ⟨true, .never⟩ rfl).1.1 ⟨3⟩ rfl).1,
   (C10_materialize_persistence_effects storeEmpty tmplOk "t:1:abc"
       ⟨true, .never⟩ rfl).2.1 (by decide),
   (C10_materialize_persistence_effects storeEmpty tmplOk "t:1:abc"
       ⟨true, .always⟩ rfl).2.2 (stamp frameOk "t:1:abc") rfl rfl⟩

end Mat

namespace Align

/-!
Embedding of `align_panel` (`src/alphaforge/time/align.py`).  A pandas
timestamp is a calendar day plus a sub-day offset, modelled as
`⟨day, tod⟩`; `.normalize()` zeroes the sub-day offset.  A `PanelFrame`
(`src/alphaforge/data/panel.py`) is a `(ts_utc, entity_id)`-keyed table with
`nf` numeric field columns; `NaN` cells are `none`.  The `observed` and
`availability` outputs set every field column of a row uniformly
(`.loc[..., :]` assignments), so they carry one value per `(ts, entity)`
row here.  pandas `reindex` requires a duplicate-free index, so theorems
assume normalized `(ts, entity)` keys are unique where that matters. -/

/-- A timestamp: UTC calendar day and sub-day offset.  `normalize()` keeps
the day and zeroes the offset. -/
structure Ts where
  day : Int
  tod : Nat
  deriving DecidableEq, Repr

def Ts.normalize (t : Ts) : Ts := ⟨t.day, 0⟩

/-- Lexicographic `≤` on timestamps (pandas index order). -/
def Ts.leb (a b : Ts) : Bool :=
  a.day < b.day || (a.day = b.day && a.tod ≤ b.tod)

/-- `AvailabilityState` (`src/alphaforge/time/align.py`). -/
inductive AvailabilityState
  | AVAILABLE
  | NO_UPDATE_EXPECTED
  | NOT_YET_RELEASED
  | TEMPORARY_OUTAGE
  | DISCONTINUED
  | MISSING_UNKNOWN
  deriving DecidableEq, Repr

/-- The schema fields `_expected_days` consults
(`src/alphaforge/data/schema.py`). -/
structure TableSchema where
  native_freq : Option String := none
  expected_cadence_days : Option Int := none
  deriving DecidableEq, Repr

/-- `AlignSpec` (`src/alphaforge/time/align.py`). -/
structure AlignSpec where
  target_grid : String
  method : String := "ffill"
  respect_asof : Bool := true
  add_missingness_channels : Bool := true
  max_fill_gap_days : Option Nat := none
  cadence_threshold_mult : Rat := mkRat 5 2
  deriving DecidableEq, Repr

/-- `_expected_days`: explicit override, else the fixed mapping from the
upper-cased native frequency. -/
def expectedDays (schema : TableSchema) : Option Int :=
  match schema.expected_cadence_days with
  | some d => some d
  | none =>
    match (schema.native_freq.getD "").toUpper with
    | "B" => some 1
    | "D" => some 1
    | "W" => some 7
    | "M" => some 30
    | "Q" => some 90
    | _ => none

/-- One long-form panel row: timestamp, entity and the field cells. -/
structure PanelRow where
  ts : Ts
  entity : String
  cells : List (Option Rat)
  deriving DecidableEq, Repr

/-- A panel with `nf` field columns. -/
structure PanelFrame where
  nf : Nat
  rows : List PanelRow
  deriving DecidableEq, Repr

/-- `df.index` day-normalisation: only the panel's timestamps are normalized
(the grid's are used as-is). -/
def normalizeRows (rows : List PanelRow) : List PanelRow :=
  rows.map (fun r => { r with ts := r.ts.normalize })

/-- `df.index.get_level_values(ENTITY).unique()`: first-appearance order. -/
def entitiesOf (rows : List PanelRow) : List String :=
  rows.foldl (fun acc r => if r.entity ∈ acc then acc else acc ++ [r.entity]) []

/-- Insertion into a `Ts.leb`-sorted per-entity sub-panel. -/
def insertSub (p : Ts × List (Option Rat)) :
    List (Ts × List (Option Rat)) → List (Ts × List (Option Rat))
  | [] => [p]
  | q :: qs => if p.1.leb q.1 then p :: q :: qs else q :: insertSub p qs

/-- `sub.sort_index()` on one entity's rows. -/
def sortSub (l : List (Ts × List (Option Rat))) : List (Ts × List (Option Rat)) :=
  l.foldr insertSub []

/-- `df.xs(ent, level=ENTITY).sort_index()`. -/
def subOf (rows : List PanelRow) (ent : String) : List (Ts × List (Option Rat)) :=
  sortSub ((rows.filter (fun r => r.entity = ent)).map (fun r => (r.ts, r.cells)))

/-- `sub.reindex(gidx)` at one grid point: the row with exactly that
timestamp, else an all-`NaN` row. -/
def baseRow (sub : List (Ts × List (Option Rat))) (nf : Nat) (g : Ts) :
    List (Option Rat) :=
  match sub.find? (fun p => p.1 = g) with
  | some p => p.2
  | none => List.replicate nf none

/-- The raw observation dates: sub-panel timestamps having any non-null
field (`sub.index[sub.notna().any(axis=1)]`). -/
def obsTss (sub : List (Ts × List (Option Rat))) : List Ts :=
  (sub.filter (fun p => p.2.any (fun c => c.isSome))).map (fun p => p.1)

/-- `obs_on_grid[g]`: a raw observation landed exactly on grid label `g`. -/
def observedAt (sub : List (Ts × List (Option Rat))) (g : Ts) : Bool :=
  (obsTss sub).any (fun t => t = g)

/-- `base.isna().all(axis=1)` at one grid point. -/
def allNanAt (sub : List (Ts × List (Option Rat))) (nf : Nat) (g : Ts) : Bool :=
  (baseRow sub nf g).all (fun c => c.isNone)

/-- The sequential availability masking of `align_panel`.  Note: for a
low-frequency series the third mask assigns `TEMPORARY_OUTAGE` at
`nan_on_obs.index` — every observed grid label, with the all-NaN boolean mask
dropped — so every observed point is marked, not only the null ones. -/
def availabilityAt (exp? : Option Int) (obs nan : Bool) : AvailabilityState :=
  let lowFreq : Bool :=
    match exp? with
    | some e => 1 < e
    | none => false
  let a1 := if lowFreq && !obs then AvailabilityState.NO_UPDATE_EXPECTED
            else AvailabilityState.AVAILABLE
  if !lowFreq then
    if nan then AvailabilityState.MISSING_UNKNOWN else a1
  else
    if obs then AvailabilityState.TEMPORARY_OUTAGE else a1

/-- Column `j` of the reindexed per-entity frame. -/
def colOf (baseRows : List (List (Option Rat))) (j : Nat) : List (Option Rat) :=
  baseRows.map (fun r => r.getD j none)

/-- `val.ffill(limit=...)` on one column: carry the last seen value forward,
for at most `limit` consecutive gaps when a limit is given. -/
def ffillCol (limit : Option Nat) :
    List (Option Rat) → Option Rat → Nat → List (Option Rat)
  | [], _, _ => []
  | c :: cs, last, gap =>
    match c with
    | some v => some v :: ffillCol limit cs (some v) 0
    | none =>
      let fill : Option Rat :=
        match last, limit with
        | some v, none => some v
        | some v, some k => if gap < k then some v else none
        | none, _ => none
      fill :: ffillCol limit cs last (gap + 1)

/-- Positions holding a value in one column. -/
def someIdxs (col : List (Option Rat)) : List (Nat × Rat) :=
  col.enum.filterMap (fun p => p.2.map (fun v => (p.1, v)))

def prevSome (col : List (Option Rat)) (i : Nat) : Option (Nat × Rat) :=
  ((someIdxs col).filter (fun p => p.1 < i)).getLast?

def nextSome (col : List (Option Rat)) (i : Nat) : Option (Nat × Rat) :=
  ((someIdxs col).filter (fun p => i < p.1)).head?

/-- `val.interpolate(limit_direction="both")` on one column: positional
linear interpolation between neighbouring values, flat extension at both
ends. -/
def interpCol (col : List (Option Rat)) : List (Option Rat) :=
  (List.range col.length).map (fun i =>
    match col.getD i none with
    | some v => some v
    | none =>
      match prevSome col i, nextSome col i with
      | some jv, some kv =>
        some (jv.2 + (kv.2 - jv.2) * ((i : Rat) - (jv.1 : Rat)) / ((kv.1 : Rat) - (jv.1 : Rat)))
      | some jv, none => some jv.2
      | none, some kv => some kv.2
      | none, none => none)

/-- Apply a column transform to every field column and re-assemble rows. -/
def applyCols (f : List (Option Rat) → List (Option Rat))
    (baseRows : List (List (Option Rat))) (nf : Nat) : List (List (Option Rat)) :=
  let cols := (List.range nf).map (fun j => f (colOf baseRows j))
  (List.range baseRows.length).map (fun i => cols.map (fun c => c.getD i none))

/-- The `align.method` dispatch on the reindexed frame: `none` keeps the raw
reindexed values, `ffill`/`step_hold` forward-fill (optionally bounded),
`interp` interpolates; an unknown method raises `ValueError`. -/
def fillFrame (method : String) (maxgap : Option Nat)
    (baseRows : List (List (Option Rat))) (nf : Nat) :
    Except String (List (List (Option Rat))) :=
  if method = "none" then .ok baseRows
  else if method = "ffill" || method = "step_hold" then
    .ok (applyCols (fun col => ffillCol maxgap col none 0) baseRows nf)
  else if method = "interp" then .ok (applyCols interpCol baseRows nf)
  else .error ("Unknown align.method equals " ++ method)

/-- One entity's aligned outputs, indexed by the grid's (un-normalized)
timestamps. -/
structure EntityOut where
  value : List (Ts × List (Option Rat))
  observed : List (Ts × Bool)
  availability : List (Ts × AvailabilityState)
  deriving DecidableEq, Repr

/-- The per-entity body of `align_panel`'s loop. -/
def alignEntity (nf : Nat) (sub : List (Ts × List (Option Rat)))
    (grid : List Ts) (exp? : Option Int) (method : String)
    (maxgap : Option Nat) : Except String EntityOut :=
  let baseRows := grid.map (fun g => baseRow sub nf g)
  match fillFrame method maxgap baseRows nf with
  | .error e => .error e
  | .ok filled =>
    .ok { value := grid.zip filled
          observed := grid.map (fun g => (g, observedAt sub g))
          availability := grid.map (fun g =>
            (g, availabilityAt exp? (observedAt sub g) (allNanAt sub nf g))) }

/-- The entity loop: stops at the first raising entity, else collects the
per-entity outputs in entity order. -/
def alignEntities (nf : Nat) (rows : List PanelRow) (grid : List Ts)
    (exp? : Option Int) (method : String) (maxgap : Option Nat) :
    List String → Except String (List (String × EntityOut))
  | [] => .ok []
  | ent :: rest =>
    match alignEntity nf (subOf rows ent) grid exp? method maxgap with
    | .error e => .error e
    | .ok o =>
      match alignEntities nf rows grid exp? method maxgap rest with
      | .error e => .error e
      | .ok os => .ok ((ent, o) :: os)

/-- Lexicographic `(timestamp, entity)` order of the final `sort_index()`. -/
def teLeb {α : Type} (a b : Ts × String × α) : Bool :=
  a.1.day < b.1.day ||
    (a.1.day = b.1.day &&
      (a.1.tod < b.1.tod || (a.1.tod = b.1.tod && a.2.1 ≤ b.2.1)))

def insertTE {α : Type} (x : Ts × String × α) :
    List (Ts × String × α) → List (Ts × String × α)
  | [] => [x]
  | y :: ys => if teLeb x y then x :: y :: ys else y :: insertTE x ys

def sortTE {α : Type} (l : List (Ts × String × α)) : List (Ts × String × α) :=
  l.foldr insertTE []

/-- The three recombined output panels, sharing the `(ts, entity)` index. -/
structure AlignedPanel where
  value : List (Ts × String × List (Option Rat))
  observed : List (Ts × String × Bool)
  availability : List (Ts × String × AvailabilityState)
  deriving DecidableEq, Repr

/-- `align_panel(panel, schema, grid, align)`: normalize the panel's
timestamps to day granularity, loop over entities (reindex onto the grid's
timestamps as given, compute observed flags, classify availability, fill
values), re-attach the entity level and sort by `(timestamp, entity)`. -/
def align_panel (panel : PanelFrame) (schema : TableSchema) (grid : List Ts)
    (align : AlignSpec) : Except String AlignedPanel :=
  let rows := normalizeRows panel.rows
  let ents := entitiesOf rows
  let exp? := expectedDays schema
  match alignEntities panel.nf rows grid exp? align.method align.max_fill_gap_days ents with
  | .error e => .error e
  | .ok eouts =>
    .ok { value := sortTE (eouts.flatMap (fun p =>
            p.2.value.map (fun q => (q.1, p.1, q.2))))
          observed := sortTE (eouts.flatMap (fun p =>
            p.2.observed.map (fun q => (q.1, p.1, q.2))))
          availability := sortTE (eouts.flatMap (fun p =>
            p.2.availability.map (fun q => (q.1, p.1, q.2)))) }

theorem mem_insertTE {α : Type} {x y : Ts × String × α}
    {l : List (Ts × String × α)} :
    x ∈ insertTE y l ↔ x = y ∨ x ∈ l := by
  induction l with
  | nil => simp [insertTE]
  | cons z zs ih =>
    by_cases h : teLeb y z
    · simp [insertTE, h]
    · simp only [insertTE, if_neg h, List.mem_cons, ih]
      tauto

theorem mem_sortTE {α : Type} {x : Ts × String × α} {l : List (Ts × String × α)} :
    x ∈ sortTE l ↔ x ∈ l := by
  induction l with
  | nil => simp [sortTE]
  | cons z zs ih =>
    simp only [sortTE, List.foldr_cons]
    rw [show zs.foldr insertTE [] = sortTE zs from rfl] at *
    simp [mem_insertTE, ih]

theorem mem_insertSub {p q : Ts × List (Option Rat)}
    {l : List (Ts × List (Option Rat))} :
    p ∈ insertSub q l ↔ p = q ∨ p ∈ l := by
  induction l with
  | nil => simp [insertSub]
  | cons z zs ih =>
    by_cases h : q.1.leb z.1
    · simp [insertSub, h]
    · simp only [insertSub, if_neg h, List.mem_cons, ih]
      tauto

theorem mem_sortSub {p : Ts × List (Option Rat)} {l : List (Ts × List (Option Rat))} :
    p ∈ sortSub l ↔ p ∈ l := by
  induction l with
  | nil => simp [sortSub]
  | cons z zs ih =>
    simp only [sortSub, List.foldr_cons]
    rw [show zs.foldr insertSub [] = sortSub zs from rfl] at *
    simp [mem_insertSub, ih]

theorem mem_subOf {rows : List PanelRow} {ent : String} {p : Ts × List (Option Rat)} :
    p ∈ subOf rows ent ↔ ∃ r ∈ rows, r.entity = ent ∧ p = (r.ts, r.cells) := by
  rw [subOf, mem_sortSub, List.mem_map]
  constructor
  · rintro ⟨r, hr, rfl⟩
    have := List.mem_filter.mp hr
    exact ⟨r, this.1, by simpa using this.2, rfl⟩
  · rintro ⟨r, hr, hent, rfl⟩
    exact ⟨r, List.mem_filter.mpr ⟨hr, by simpa using hent⟩, rfl⟩

theorem mem_normalizeRows {rows : List PanelRow} {r : PanelRow} :
    r ∈ normalizeRows rows ↔
      ∃ r0 ∈ rows, r = ⟨r0.ts.normalize, r0.entity, r0.cells⟩ := by
  rw [normalizeRows, List.mem_map]
  constructor
  · rintro ⟨r0, hr0, rfl⟩
    exact ⟨r0, hr0, rfl⟩
  · rintro ⟨r0, hr0, rfl⟩
    exact ⟨r0, hr0, rfl⟩

theorem observedAt_iff {sub : List (Ts × List (Option Rat))} {g : Ts} :
    observedAt sub g = true ↔
      ∃ p ∈ sub, p.1 = g ∧ p.2.any (fun c => c.isSome) = true := by
  rw [observedAt, List.any_eq_true]
  constructor
  · rintro ⟨t, ht, hg⟩
    rw [obsTss, List.mem_map] at ht
    obtain ⟨p, hp, rfl⟩ := ht
    have := List.mem_filter.mp hp
    exact ⟨p, this.1, by simpa using hg, this.2⟩
  · rintro ⟨p, hp, hg, hsome⟩
    refine ⟨p.1, ?_, by simpa using hg⟩
    rw [obsTss, List.mem_map]
    exact ⟨p, List.mem_filter.mpr ⟨hp, hsome⟩, rfl⟩

theorem mem_entitiesOf_aux (rows : List PanelRow) (acc : List String) (e : String) :
    e ∈ rows.foldl (fun acc r => if r.entity ∈ acc then acc else acc ++ [r.entity]) acc ↔
      e ∈ acc ∨ ∃ r ∈ rows, r.entity = e := by
  induction rows generalizing acc with
  | nil => simp
  | cons r rs ih =>
    simp only [List.foldl_cons]
    by_cases h : r.entity ∈ acc
    · rw [if_pos h, ih]
      constructor
      · rintro (ha | ⟨s, hs, hse⟩)
        · exact Or.inl ha
        · exact Or.inr ⟨s, List.mem_cons_of_mem _ hs, hse⟩
      · rintro (ha | ⟨s, hs, rfl⟩)
        · exact Or.inl ha
        · rcases List.mem_cons.mp hs with rfl | hs
          · exact Or.inl h
          · exact Or.inr ⟨s, hs, rfl⟩
    · rw [if_neg h, ih]
      simp only [List.mem_append, List.mem_singleton]
      constructor
      · rintro ((ha | ha) | hr)
        · exact Or.inl ha
        · exact Or.inr ⟨r, List.mem_cons_self r rs, ha.symm⟩
        · obtain ⟨s, hs, rfl⟩ := hr
          exact Or.inr ⟨s, List.mem_cons_of_mem _ hs, rfl⟩
      · rintro (ha | ⟨s, hs, rfl⟩)
        · exact Or.inl (Or.inl ha)
        · rcases List.mem_cons.mp hs with rfl | hs
          · exact Or.inl (Or.inr rfl)
          · exact Or.inr ⟨s, hs, rfl⟩

theorem mem_entitiesOf {rows : List PanelRow} {e : String} :
    e ∈ entitiesOf rows ↔ ∃ r ∈ rows, r.entity = e := by
  simpa using mem_entitiesOf_aux rows [] e

theorem applyCols_length (f : List (Option Rat) → List (Option Rat))
    (baseRows : List (List (Option Rat))) (nf : Nat) :
    (applyCols f baseRows nf).length = baseRows.length := by
  simp [applyCols]

theorem fillFrame_ok_length {method : String} {maxgap : Option Nat}
    {baseRows filled : List (List (Option Rat))} {nf : Nat}
    (h : fillFrame method maxgap baseRows nf = .ok filled) :
    filled.length = baseRows.length := by
  rw [fillFrame] at h
  split_ifs at h with h1 h2 h3
  · cases h; rfl
  · cases h; exact applyCols_length _ _ _
  · cases h; exact applyCols_length _ _ _

theorem alignEntity_ok {nf : Nat} {sub : List (Ts × List (Option Rat))}
    {grid : List Ts} {exp? : Option Int} {method : String} {maxgap : Option Nat}
    {o : EntityOut} (h : alignEntity nf sub grid exp? method maxgap = .ok o) :
    o.observed = grid.map (fun g => (g, observedAt sub g)) ∧
    o.value.map (fun q => q.1) = grid ∧
    o.availability = grid.map (fun g =>
      (g, availabilityAt exp? (observedAt sub g) (allNanAt sub nf g))) := by
  rw [alignEntity] at h
  rcases hf : fillFrame method maxgap (grid.map (fun g => baseRow sub nf g)) nf with e | filled
  · rw [hf] at h
    cases h
  · rw [hf] at h
    cases h
    refine ⟨rfl, ?_, rfl⟩
    refine List.map_fst_zip _ _ ?_
    rw [fillFrame_ok_length hf, List.length_map]

theorem alignEntities_ok {nf : Nat} {rows : List PanelRow} {grid : List Ts}
    {exp? : Option Int} {method : String} {maxgap : Option Nat} :
    ∀ {ents : List String} {eouts : List (String × EntityOut)},
    alignEntities nf rows grid exp? method maxgap ents = .ok eouts →
    (∀ p ∈ eouts, p.1 ∈ ents ∧
      alignEntity nf (subOf rows p.1) grid exp? method maxgap = .ok p.2) ∧
    (∀ ent ∈ ents, ∃ o, (ent, o) ∈ eouts) := by
  intro ents
  induction ents with
  | nil =>
    intro eouts h
    cases h
    exact ⟨fun p hp => absurd hp (List.not_mem_nil p), fun ent h => absurd h (List.not_mem_nil ent)⟩
  | cons ent rest ih =>
    intro eouts h
    rw [alignEntities] at h
    rcases h1 : alignEntity nf (subOf rows ent) grid exp? method maxgap with e | o
    · rw [h1] at h
      cases h
    · rw [h1] at h
      rcases h2 : alignEntities nf rows grid exp? method maxgap rest with e | os
      · rw [h2] at h
        cases h
      · rw [h2] at h
        cases h
        obtain ⟨ihm, ihc⟩ := ih h2
        constructor
        · intro p hp
          rcases List.mem_cons.mp hp with rfl | hp
          · exact ⟨List.mem_cons_self _ _, h1⟩
          · exact ⟨List.mem_cons_of_mem _ (ihm p hp).1, (ihm p hp).2⟩
        · intro e he
          rcases List.mem_cons.mp he with rfl | he
          · exact ⟨o, List.mem_cons_self _ _⟩
          · obtain ⟨o', ho'⟩ := ihc e he
            exact ⟨o', List.mem_cons_of_mem _ ho'⟩

/-- C5 counterexample input: a raw observation at sub-day offset 30 of day 0,
evaluated on a grid whose single point sits at sub-day offset 600 of the same
calendar day. -/
def c5Panel : PanelFrame := ⟨1, [⟨⟨0, 30⟩, "A", [some 1]⟩]⟩

def c5Schema : TableSchema :=
  { native_freq := some "B", expected_cadence_days := some 1 }

def alignSpecFfill : AlignSpec := { target_grid := "sessions", method := "ffill" }

/-- C5 counterexample: the raw observation shares the grid point's calendar
date and is non-null, yet `observed` at that grid point is `false` (and the
cell is classified `MISSING_UNKNOWN`), because the grid's timestamps are
*not* day-normalized before the comparison — only the panel's are. -/
theorem C5_claim_counterexample :
    align_panel c5Panel c5Schema [⟨0, 600⟩] alignSpecFfill =
      .ok ⟨[(⟨0, 600⟩, "A", [none])], [(⟨0, 600⟩, "A", false)],
        [(⟨0, 600⟩, "A", AvailabilityState.MISSING_UNKNOWN)]⟩ ∧
    (⟨0, 30⟩ : Ts).day = (⟨0, 600⟩ : Ts).day ∧
    (c5Panel.rows.any (fun r => r.cells.any (fun c => c.isSome))) = true := by
  refine ⟨by decide, rfl, by decide⟩

/-- C5 (amended). Alignment matching: `align_panel` normalizes only the
panel's timestamps to day granularity and compares them with the grid's
timestamps exactly as given, so `observed[t]` is true iff the raw series had
a non-null value at a timestamp whose day-normalisation equals grid point `t`
— a same-calendar-date observation lands on `t` exactly when `t` itself is at
day granularity; the value panel carries the grid's full (un-normalized)
timestamps. -/
theorem C5_alignment_day_matching (panel : PanelFrame) (schema : TableSchema)
    (grid : List Ts) (spec : AlignSpec) (out : AlignedPanel)
    (hok : align_panel panel schema grid spec = .ok out) :
    (∀ g ent b, (g, ent, b) ∈ out.observed →
      (b = true ↔ ∃ r ∈ panel.rows, r.entity = ent ∧ r.ts.normalize = g ∧
        r.cells.any (fun c => c.isSome) = true)) ∧
    (∀ (r : PanelRow) (g : Ts), g.tod = 0 →
      (r.ts.normalize = g ↔ r.ts.day = g.day)) ∧
    (∀ g ent cells, (g, ent, cells) ∈ out.value → g ∈ grid) ∧
    (∀ g ∈ grid, ∀ ent, (∃ r ∈ panel.rows, r.entity = ent) →
      ∃ cells, (g, ent, cells) ∈ out.value) := by
  rw [align_panel] at hok
  rcases hae : alignEntities panel.nf (normalizeRows panel.rows) grid
      (expectedDays schema) spec.method spec.max_fill_gap_days
      (entitiesOf (normalizeRows panel.rows)) with e | eouts
  · rw [hae] at hok
    cases hok
  · rw [hae] at hok
    cases hok
    obtain ⟨hmem, hcov⟩ := alignEntities_ok hae
    refine ⟨?_, ?_, ?_, ?_⟩
    · -- observed characterisation
      intro g ent b hb
      simp only [mem_sortTE, List.mem_flatMap] at hb
      obtain ⟨p, hp, hin⟩ := hb
      rw [List.mem_map] at hin
      obtain ⟨q, hq, heq⟩ := hin
      have hent : p.1 = ent := congrArg (fun x => x.2.1) heq
      have hg : q.1 = g := congrArg (fun x => x.1) heq
      have hbq : q.2 = b := congrArg (fun x => x.2.2) heq
      obtain ⟨hobs, _, _⟩ := alignEntity_ok (hmem p hp).2
      rw [hobs, List.mem_map] at hq
      obtain ⟨g', hg', hq'⟩ := hq
      have hgg : g' = g := by
        rw [← hg, ← hq']
      have hb' : b = observedAt (subOf (normalizeRows panel.rows) p.1) g := by
        rw [← hbq, ← hq', hgg]
      rw [hb', hent]
      rw [observedAt_iff]
      constructor
      · rintro ⟨pr, hpr, hpg, hpany⟩
        rw [mem_subOf] at hpr
        obtain ⟨r, hr, hrent, hpr⟩ := hpr
        rw [mem_normalizeRows] at hr
        obtain ⟨r0, hr0, hr0eq⟩ := hr
        refine ⟨r0, hr0, ?_, ?_, ?_⟩
        · rw [← hrent, hr0eq]
        · have : pr.1 = r0.ts.normalize := by rw [hpr, hr0eq]
          rw [← this, hpg]
        · have : pr.2 = r0.cells := by rw [hpr, hr0eq]
          rw [← this]
          exact hpany
      · rintro ⟨r0, hr0, hent0, hnorm, hany⟩
        refine ⟨(r0.ts.normalize, r0.cells), ?_, by simpa using hnorm, hany⟩
        rw [mem_subOf]
        refine ⟨⟨r0.ts.normalize, r0.entity, r0.cells⟩, ?_, hent0, rfl⟩
        rw [mem_normalizeRows]
        exact ⟨r0, hr0, rfl⟩
    · -- day-granular grid points recover calendar-date matching
      intro r g hg
      rcases g with ⟨gd, gt⟩
      simp only at hg
      subst hg
      constructor
      · intro h
        have := congrArg Ts.day h
        simpa [Ts.normalize] using this
      · intro h
        simp [Ts.normalize, h]
    · -- every value row's timestamp is a grid timestamp
      intro g ent cells hv
      simp only [mem_sortTE, List.mem_flatMap] at hv
      obtain ⟨p, hp, hin⟩ := hv
      rw [List.mem_map] at hin
      obtain ⟨q, hq, heq⟩ := hin
      obtain ⟨_, hval, _⟩ := alignEntity_ok (hmem p hp).2
      have hg : q.1 = g := congrArg (fun x => x.1) heq
      rw [← hval]
      rw [List.mem_map]
      exact ⟨q, hq, hg⟩
    · -- every (grid point, entity) pair carries a value row
      intro g hg ent hent
      have hentm : ent ∈ entitiesOf (normalizeRows panel.rows) := by
        rw [mem_entitiesOf]
        obtain ⟨r, hr, hre⟩ := hent
        refine ⟨⟨r.ts.normalize, r.entity, r.cells⟩, ?_, hre⟩
        rw [mem_normalizeRows]
        exact ⟨r, hr, rfl⟩
      obtain ⟨o, ho⟩ := hcov ent hentm
      obtain ⟨_, hval, _⟩ := alignEntity_ok (hmem (ent, o) ho).2
      have : g ∈ o.value.map (fun q => q.1) := by
        rw [hval]
        exact hg
      rw [List.mem_map] at this
      obtain ⟨q, hq, hqg⟩ := this
      refine ⟨q.2, ?_⟩
      simp only [mem_sortTE, List.mem_flatMap]
      refine ⟨(ent, o), ho, ?_⟩
      rw [List.mem_map]
      exact ⟨q, hq, by rw [hqg]⟩

/-- C5 witness input: the same observation, on a day-granular (midnight)
grid point of the same calendar day, where it does land. -/
def c5WitnessGrid : List Ts := [⟨0, 0⟩]

/-- C5 witness: the amended theorem applied at a concrete aligned panel; on
the day-granular grid the observation is matched (`observed = true` with the
characterisation instantiated). -/
theorem C5_alignment_day_matching_witness :
    align_panel c5Panel c5Schema c5WitnessGrid alignSpecFfill =
      .ok ⟨[(⟨0, 0⟩, "A", [some 1])], [(⟨0, 0⟩, "A", true)],
        [(⟨0, 0⟩, "A", AvailabilityState.AVAILABLE)]⟩ ∧
    ((true = true) ↔ ∃ r ∈ c5Panel.rows, r.entity = "A" ∧
      r.ts.normalize = (⟨0, 0⟩ : Ts) ∧
      r.cells.any (fun c => c.isSome) = true) :=
  ⟨by decide,
   (C5_alignment_day_matching c5Panel c5Schema c5WitnessGrid alignSpecFfill
       ⟨[(⟨0, 0⟩, "A", [some 1])], [(⟨0, 0⟩, "A", true)],
        [(⟨0, 0⟩, "A", AvailabilityState.AVAILABLE)]⟩ (by decide)).1
     ⟨0, 0⟩ "A" true (by decide)⟩

/-- C4 failing input: a monthly series (`expected_cadence_days = 30`) with a
value observed exactly on the single grid point. -/
def c4Panel : PanelFrame := ⟨1, [⟨⟨0, 0⟩, "A", [some 1]⟩]⟩

def c4Schema : TableSchema :=
  { native_freq := some "M", expected_cadence_days := some 30 }

/-- C4. The availability classification diverges from the claim (and from the
function's own docstring, "missing on an observation date -> TEMPORARY_OUTAGE"):
for a low-frequency series the `availability.loc[nan_on_obs.index, :]`
assignment marks *every* observed grid point `TEMPORARY_OUTAGE`, because
`nan_on_obs.index` is the full observed-label index with the all-null boolean
mask dropped.  Here a present (non-null) observed value — `AVAILABLE` per the
claim's "otherwise" clause — is classified `TEMPORARY_OUTAGE`. -/
theorem C4_available_cell_marked_outage :
    align_panel c4Panel c4Schema [⟨0, 0⟩] alignSpecFfill =
      .ok ⟨[(⟨0, 0⟩, "A", [some 1])], [(⟨0, 0⟩, "A", true)],
        [(⟨0, 0⟩, "A", AvailabilityState.TEMPORARY_OUTAGE)]⟩ ∧
    AvailabilityState.TEMPORARY_OUTAGE ≠ AvailabilityState.AVAILABLE := by
  refine ⟨by decide, by decide⟩

end Align

namespace Ref

/-!
Embedding of `RefPeriod` (`src/alphaforge/time/ref_period.py`).  Dates are
`(year, month, day)` triples: every operation of the source works at day
granularity (`end_obs_date` and `from_obs_date_end` floor their timestamps to
midnight UTC, which is the identity here).  `pd.Timestamp(y, m, 1) +
MonthEnd(0)` is the last calendar day of month `m`, with Gregorian leap
years. -/

inductive RefFreq
  | A
  | Q
  | M
  deriving DecidableEq, Repr

structure Date where
  year : Int
  month : Nat
  day : Nat
  deriving DecidableEq, Repr

def isLeap (y : Int) : Bool :=
  (y % 4 = 0 && ¬ y % 100 = 0) || y % 400 = 0

/-- Length of a calendar month (Gregorian). -/
def daysInMonth (y : Int) (m : Nat) : Nat :=
  if m = 2 then (if isLeap y then 29 else 28)
  else if m = 4 || m = 6 || m = 9 || m = 11 then 30
  else 31

structure RefPeriod where
  freq : RefFreq
  year : Int
  period : Nat
  deriving DecidableEq, Repr

/-- `RefPeriod.end_obs_date`: the fiscal period's last calendar day. -/
def RefPeriod.end_obs_date (p : RefPeriod) : Date :=
  match p.freq with
  | .A => ⟨p.year, 12, 31⟩
  | .Q => ⟨p.year, p.period * 3, daysInMonth p.year (p.period * 3)⟩
  | .M => ⟨p.year, p.period, daysInMonth p.year p.period⟩

/-- `RefPeriod.from_obs_date_end`: recover the period whose end date is the
given day, failing when the day is not that period's end. -/
def RefPeriod.from_obs_date_end (d : Date) (freq : RefFreq) :
    Except String RefPeriod :=
  let period : Nat :=
    match freq with
    | .A => 1
    | .Q => (d.month - 1) / 3 + 1
    | .M => d.month
  let candidate : RefPeriod := ⟨freq, d.year, period⟩
  if candidate.end_obs_date = d then .ok candidate
  else .error "obs_date_end does not match the end of the requested reference period."

/-- `str.strip()` on a character list. -/
def strip (cs : List Char) : List Char :=
  ((cs.dropWhile Char.isWhitespace).reverse.dropWhile Char.isWhitespace).reverse

def digitVal (c : Char) : Nat := c.toNat - '0'.toNat

def year4 (a b c d : Char) : Int :=
  ((digitVal a * 1000 + digitVal b * 100 + digitVal c * 10 + digitVal d : Nat) : Int)

/-- `^(\d{4})[Qq]([1-4])$`. -/
def matchQuarter : List Char → Option RefPeriod
  | [y1, y2, y3, y4, q, p] =>
    if y1.isDigit && y2.isDigit && y3.isDigit && y4.isDigit &&
        (q = 'Q' || q = 'q') && ('1' ≤ p && p ≤ '4') then
      some ⟨.Q, year4 y1 y2 y3 y4, digitVal p⟩
    else none
  | _ => none

/-- `^(\d{4})-(\d{2})-(\d{2})$` followed by `pd.Timestamp` validation and the
month-end check. -/
def matchYMD : List Char → Except String (Option RefPeriod)
  | [y1, y2, y3, y4, s1, m1, m2, s2, d1, d2] =>
    if y1.isDigit && y2.isDigit && y3.isDigit && y4.isDigit &&
        s1 = '-' && m1.isDigit && m2.isDigit && s2 = '-' &&
        d1.isDigit && d2.isDigit then
      let y := year4 y1 y2 y3 y4
      let m := digitVal m1 * 10 + digitVal m2
      let dd := digitVal d1 * 10 + digitVal d2
      if 1 ≤ m && m ≤ 12 && 1 ≤ dd && dd ≤ daysInMonth y m then
        if dd = daysInMonth y m then .ok (some ⟨.M, y, m⟩)
        else .error "Date reference periods must be month-end (YYYY-MM-DD)."
      else .error "Invalid reference period date."
    else .ok none
  | _ => .ok none

/-- Four year digits, a dash or slash separator, two month digits
(the `YYYY-MM` / `YYYY/MM` branch), with the month-range check. -/
def matchYM : List Char → Except String (Option RefPeriod)
  | [y1, y2, y3, y4, s1, m1, m2] =>
    if y1.isDigit && y2.isDigit && y3.isDigit && y4.isDigit &&
        (s1 = '-' || s1 = '/') && m1.isDigit && m2.isDigit then
      let m := digitVal m1 * 10 + digitVal m2
      if 1 ≤ m && m ≤ 12 then .ok (some ⟨.M, year4 y1 y2 y3 y4, m⟩)
      else .error "Invalid reference period month."
    else .ok none
  | _ => .ok none

/-- `^(\d{4})$`. -/
def matchYear : List Char → Option RefPeriod
  | [y1, y2, y3, y4] =>
    if y1.isDigit && y2.isDigit && y3.isDigit && y4.isDigit then
      some ⟨.A, year4 y1 y2 y3 y4, 1⟩
    else none
  | _ => none

/-- `RefPeriod.parse`: strip, require non-empty, then try the quarter,
date, year-month and year formats in the source's order. -/
def RefPeriod.parse (s : String) : Except String RefPeriod :=
  let text := strip s.toList
  if text = [] then .error "Reference period string is required."
  else
    match matchQuarter text with
    | some p => .ok p
    | none =>
      match matchYMD text with
      | .error e => .error e
      | .ok (some p) => .ok p
      | .ok none =>
        match matchYM text with
        | .error e => .error e
        | .ok (some p) => .ok p
        | .ok none =>
          match matchYear text with
          | some p => .ok p
          | none => .error "Invalid reference period format. Expected YYYY, YYYYQq, YYYY-MM, YYYY/MM, or YYYY-MM-DD."

/-- A structurally valid reference period: the period index lies in the
frequency's range (annual periods are index 1). -/
def ValidPeriod (p : RefPeriod) : Prop :=
  match p.freq with
  | .A => p.period = 1
  | .Q => 1 ≤ p.period ∧ p.period ≤ 4
  | .M => 1 ≤ p.period ∧ p.period ≤ 12

/-- A real calendar date. -/
def ValidDate (d : Date) : Prop :=
  1 ≤ d.month ∧ d.month ≤ 12 ∧ 1 ≤ d.day ∧ d.day ≤ daysInMonth d.year d.month

/-- The claim's side condition: the date is the last calendar day of a period
of the given frequency. -/
def IsPeriodEnd (f : RefFreq) (d : Date) : Prop :=
  match f with
  | .A => d.month = 12 ∧ d.day = 31
  | .Q => (d.month = 3 ∨ d.month = 6 ∨ d.month = 9 ∨ d.month = 12) ∧
      d.day = daysInMonth d.year d.month
  | .M => d.day = daysInMonth d.year d.month

instance : ∀ p : RefPeriod, Decidable (ValidPeriod p)
  | ⟨.A, _, per⟩ => inferInstanceAs (Decidable (per = 1))
  | ⟨.Q, _, per⟩ => inferInstanceAs (Decidable (1 ≤ per ∧ per ≤ 4))
  | ⟨.M, _, per⟩ => inferInstanceAs (Decidable (1 ≤ per ∧ per ≤ 12))

instance (d : Date) : Decidable (ValidDate d) := by
  unfold ValidDate; infer_instance

instance : ∀ (f : RefFreq) (d : Date), Decidable (IsPeriodEnd f d)
  | .A, d => inferInstanceAs (Decidable (d.month = 12 ∧ d.day = 31))
  | .Q, d => inferInstanceAs (Decidable (_ ∧ d.day = daysInMonth d.year d.month))
  | .M, d => inferInstanceAs (Decidable (d.day = daysInMonth d.year d.month))

/-- C6. Reference-period round-trip: for every valid period,
`from_obs_date_end (end_obs_date p) p.freq` recovers `p`; for every real
date, `from_obs_date_end` succeeds exactly when the date is the last calendar
day of a period of the requested frequency (otherwise it fails with an input
error); and concretely `parse "2024Q4"` ends on `2024-12-31`, which maps back
to `2024Q4` under quarterly frequency. -/
theorem C6_ref_period_roundtrip :
    (∀ p : RefPeriod, ValidPeriod p →
      RefPeriod.from_obs_date_end p.end_obs_date p.freq = .ok p) ∧
    (∀ (d : Date) (f : RefFreq), ValidDate d →
      ((RefPeriod.from_obs_date_end d f).isOk = true ↔ IsPeriodEnd f d)) ∧
    (∃ p, RefPeriod.parse "2024Q4" = .ok p ∧
      p.end_obs_date = ⟨2024, 12, 31⟩) ∧
    RefPeriod.from_obs_date_end ⟨2024, 12, 31⟩ .Q = .ok ⟨.Q, 2024, 4⟩ := by
  refine ⟨?_, ?_, ?_, ?_⟩
  · rintro ⟨f, y, per⟩ hv
    cases f
    · have hv1 : per = 1 := hv
      subst hv1
      simp [RefPeriod.from_obs_date_end, RefPeriod.end_obs_date]
    · obtain ⟨h1, h4⟩ : 1 ≤ per ∧ per ≤ 4 := hv
      have hper : (per * 3 - 1) / 3 + 1 = per := by
        interval_cases per <;> rfl
      simp [RefPeriod.from_obs_date_end, RefPeriod.end_obs_date, hper]
    · simp [RefPeriod.from_obs_date_end, RefPeriod.end_obs_date]
  · rintro ⟨y, m, dd⟩ f ⟨hm1, hm2, hd1, hd2⟩
    simp only at hm1 hm2 hd1 hd2
    cases f
    · rw [RefPeriod.from_obs_date_end]
      simp only [RefPeriod.end_obs_date]
      constructor
      · intro hok
        by_cases hc : (⟨y, 12, 31⟩ : Date) = ⟨y, m, dd⟩
        · obtain ⟨rfl, rfl⟩ : 12 = m ∧ 31 = dd := by
            refine ⟨congrArg Date.month hc, congrArg Date.day hc⟩
          exact ⟨rfl, rfl⟩
        · rw [if_neg hc] at hok
          cases hok
      · rintro ⟨rfl, rfl⟩
        rw [if_pos rfl]
        rfl
    · rw [RefPeriod.from_obs_date_end]
      simp only [RefPeriod.end_obs_date]
      constructor
      · intro hok
        by_cases hc : (⟨y, ((m - 1) / 3 + 1) * 3,
            daysInMonth y (((m - 1) / 3 + 1) * 3)⟩ : Date) = ⟨y, m, dd⟩
        · have hcm : ((m - 1) / 3 + 1) * 3 = m := congrArg Date.month hc
          have hcd : daysInMonth y (((m - 1) / 3 + 1) * 3) = dd :=
            congrArg Date.day hc
          rw [hcm] at hcd
          refine ⟨?_, hcd.symm⟩
          interval_cases m <;> simp_all
        · rw [if_neg hc] at hok
          cases hok
      · rintro ⟨hm, hdd⟩
        have hcm : ((m - 1) / 3 + 1) * 3 = m := by
          rcases hm with rfl | rfl | rfl | rfl <;> rfl
        rw [if_pos (by rw [hcm, ← hdd])]
        rfl
    · rw [RefPeriod.from_obs_date_end]
      simp only [RefPeriod.end_obs_date]
      constructor
      · intro hok
        by_cases hc : (⟨y, m, daysInMonth y m⟩ : Date) = ⟨y, m, dd⟩
        · exact (congrArg Date.day hc).symm
        · rw [if_neg hc] at hok
          cases hok
      · intro hdd
        rw [if_pos (by rw [← hdd])]
        rfl
  · exact ⟨⟨.Q, 2024, 4⟩, by decide, by decide⟩
  · decide

/-- C6 witness: the general round-trip and the success-iff-period-end parts
applied at `2024Q4` / `2024-12-31`. -/
theorem C6_ref_period_roundtrip_witness :
    ValidPeriod ⟨.Q, 2024, 4⟩ ∧
      RefPeriod.from_obs_date_end (RefPeriod.end_obs_date ⟨.Q, 2024, 4⟩) .Q =
        .ok ⟨.Q, 2024, 4⟩ ∧
      ValidDate ⟨2024, 11, 30⟩ ∧
      ((RefPeriod.from_obs_date_end ⟨2024, 11, 30⟩ .Q).isOk = true ↔
        IsPeriodEnd .Q ⟨2024, 11, 30⟩) :=
  ⟨by decide,
   C6_ref_period_roundtrip.1 ⟨.Q, 2024, 4⟩ (by decide),
   by decide,
   C6_ref_period_roundtrip.2.1 ⟨2024, 11, 30⟩ .Q (by decide)⟩

end Ref

namespace Grids

/-!
Embedding of `build_grid_utc` (`src/alphaforge/time/grids.py`) and the
`TradingCalendar` helpers it uses (`src/alphaforge/time/calendar.py`).
Instants are nanoseconds — the resolution of `pd.Timestamp` — on a single
UTC scale; UTC calendar day `d` spans `[86400000000000*d,
86400000000000*(d+1))`, so every value produced here is a tz-aware UTC
instant by construction.  The calendar's local timezone is its UTC offset,
in nanoseconds east, as a function of the session-label day (`off`); within
one session the offset is constant, so pandas' absolute `Timedelta`
addition and wall-clock addition coincide.  `ts.tz_convert(tz).normalize()`
is: add the offset, floor to the wall-clock day, subtract the offset. -/

structure TradingCalendar where
  name : String
  off : Int → Int

/-- Day 0 (1970-01-01) is a Thursday; Monday is weekday 0, as in pandas. -/
def weekday (d : Int) : Int := (d + 3) % 7

def isBusinessDay (d : Int) : Bool := weekday d < 5

/-- `pd.bdate_range(start, end)` as day numbers (empty when `e < s`). -/
def bdateRange (s e : Int) : List Int :=
  ((List.range (e + 1 - s).toNat).map (fun (k : Nat) => s + (k : Int))).filter
    isBusinessDay

/-- `ts.tz_convert(tz).normalize()` for the session label of day `d`: the
absolute instant of the local midnight that starts the label's wall-clock
day. -/
def localMidnight (cal : TradingCalendar) (d : Int) : Int :=
  86400000000000 * ((86400000000000 * d + cal.off d) / 86400000000000) -
    cal.off d

/-- `session_open_utc`: local midnight plus 09:30. -/
def session_open_utc (cal : TradingCalendar) (d : Int) : Int :=
  localMidnight cal d + 34200000000000

/-- `session_close_utc`: local midnight plus 16:00. -/
def session_close_utc (cal : TradingCalendar) (d : Int) : Int :=
  localMidnight cal d + 57600000000000

/-- `pd.date_range(open, close, freq=n, inclusive="right")`: the points
`open + n*k` for `k ≥ 1` not exceeding `close` when `n` is positive; a
negative frequency makes `generate_range` walk away from `close` and yield
nothing (the zero case is rejected before any range is built). -/
def rangePts (o c n : Int) : List Int :=
  (List.range ((c - o) / n).toNat).map (fun (k : Nat) => o + n * ((k : Int) + 1))

/-- Strictly-ascending duplicate-free insertion (the combined
`.unique().sort_values()`). -/
def sortDedupInts (l : List Int) : List Int :=
  l.foldl (fun acc x => PIT.insertAsc x acc) []

/-- `≤`-insertion sort (plain `.sort_values()`, duplicates kept). -/
def insertLeInt (x : Int) : List Int → List Int
  | [] => [x]
  | y :: ys => if x ≤ y then x :: y :: ys else y :: insertLeInt x ys

def sortInts (l : List Int) : List Int := l.foldr insertLeInt []

/-- `TradingCalendar.trading_minutes_utc`: per session intersecting the
range, the right-open/close-inclusive range of frequency steps (skipped
when empty *before* clipping), clipped to `[s, e]`; one piece is returned
as is, several are concatenated, deduplicated and sorted. -/
def trading_minutes_utc (cal : TradingCalendar) (s e n : Int) : List Int :=
  let sessions := bdateRange (s / 86400000000000) (e / 86400000000000)
  let pieces := sessions.filterMap (fun d =>
    let r := rangePts (session_open_utc cal d) (session_close_utc cal d) n
    if r = [] then none
    else some (r.filter (fun x => s ≤ x && x ≤ e)))
  match pieces with
  | [] => []
  | [p] => p
  | _ => sortDedupInts pieces.flatten

def toLowerL (cs : List Char) : List Char := cs.map Char.toLower

/-- `g.endswith("min")` on characters. -/
def endsWithMin (cs : List Char) : Bool :=
  match cs.reverse with
  | 'n' :: 'i' :: 'm' :: _ => true
  | _ => false

def digitsToNat (cs : List Char) : Nat :=
  cs.foldl (fun acc c => 10 * acc + (c.toNat - '0'.toNat)) 0

/-- ASCII whitespace, the separator class the offset tokenizer accepts
between components. -/
def pySpace (c : Char) : Bool :=
  c = ' ' || c = '\t' || c = '\n' || c = '\r' || c = '\x0B' || c = '\x0C'

def dropSpacesL : List Char → List Char
  | [] => []
  | c :: t => if pySpace c then dropSpacesL t else c :: t

def spanDigitsL : List Char → List Char × List Char
  | [] => ([], [])
  | c :: t =>
    if c.isDigit then
      let p := spanDigitsL t
      (c :: p.1, p.2)
    else ([], c :: t)

def isAsciiLetter (c : Char) : Bool :=
  ('a' ≤ c && c ≤ 'z') || ('A' ≤ c && c ≤ 'Z')

def spanLettersL : List Char → List Char × List Char
  | [] => ([], [])
  | c :: t =>
    if isAsciiLetter c then
      let p := spanLettersL t
      (c :: p.1, p.2)
    else ([], c :: t)

/-- Nanoseconds per unit alias, with whether the alias reaches the
fixed-frequency (`Tick`) branch of `to_offset` that accepts decimal
strides.  The grid token is lowercased before parsing, so only lowercase
aliases occur: `h`/`min`/`s`/`ms`/`us`/`ns` (and pandas 2's deprecated
single-letter forms `t`/`l`/`u`/`n`) build a `Timedelta` directly and take
decimal strides; `d` resolves through the general offset table, whose
strides go through `int()`, so it takes integer strides only (its offset is
still a fixed 24-hour tick); every other alias either is unknown or names a
calendar-dependent offset that cannot be added onto a fixed tick — both
raise. -/
def tickUnit : List Char → Option (Nat × Bool)
  | ['d'] => some (86400000000000, false)
  | ['h'] => some (3600000000000, true)
  | ['m', 'i', 'n'] => some (60000000000, true)
  | ['t'] => some (60000000000, true)
  | ['s'] => some (1000000000, true)
  | ['m', 's'] => some (1000000, true)
  | ['l'] => some (1000000, true)
  | ['u', 's'] => some (1000, true)
  | ['u'] => some (1000, true)
  | ['n', 's'] => some (1, true)
  | ['n'] => some (1, true)
  | _ => none

/-- The `Timedelta` nanosecond magnitude bound: `2^63 - 1` (the minimum of
the signed 64-bit range is reserved for `NaT`). -/
def tdBound : Nat := 9223372036854775807

/-- One component of a frequency token, after the tokenizer pattern
`([+-]?\d*\.?\d*)\s*([A-Za-z]+)`: an optional sign, optional integer and
fraction digit runs around an optional point, optional spaces, and a unit
alias.  An absent stride means 1; a stride with a sign or a point but no
digit at all fails `float()`.  The value is the stride times the unit,
rounded to the nearest nanosecond, signed per component. -/
def parseComponent (cs : List Char) : Option (Int × List Char) :=
  let (neg, hasSign, cs1) :=
    match cs with
    | '+' :: t => (false, true, t)
    | '-' :: t => (true, true, t)
    | _ => (false, false, cs)
  let (ds, cs2) := spanDigitsL cs1
  let (hasPoint, fracs, cs3) :=
    match cs2 with
    | '.' :: t =>
      let (fr, r) := spanDigitsL t
      (true, fr, r)
    | _ => (false, [], cs2)
  let (nm, rest) := spanLettersL (dropSpacesL cs3)
  if nm.isEmpty then none
  else
    match tickUnit nm with
    | none => none
    | some (u, decOk) =>
      if ds.isEmpty && fracs.isEmpty then
        if hasSign || hasPoint then none else some ((u : Int), rest)
      else if hasPoint && !decOk then none
      else
        let f := fracs.length
        let mag : Nat :=
          (2 * (digitsToNat ds * 10 ^ f + digitsToNat fracs) * u + 10 ^ f) /
            (2 * 10 ^ f)
        some (if neg then -(mag : Int) else (mag : Int), rest)

/-- Folding `to_offset` over a whole token: components summed left to
right, every component value and every partial sum kept inside the
`Timedelta` range (`Timedelta` construction and tick addition both
overflow-check), spaces allowed before components and after the last one.
The fuel is the token length; a component always consumes at least its
alias character, so the fuel never runs out on a token it is called on. -/
def parseCompsNs : Nat → Int → List Char → Option Int
  | _, acc, [] => some acc
  | 0, _, _ => none
  | fuel + 1, acc, cs =>
    let cs1 := dropSpacesL cs
    if cs1.isEmpty then some acc
    else
      match parseComponent cs1 with
      | none => none
      | some (v, rest) =>
        if v.natAbs ≤ tdBound ∧ (acc + v).natAbs ≤ tdBound then
          parseCompsNs fuel (acc + v) rest
        else none

/-- The frequency grammar reachable from the `"{n}min"` branch: a
lowercased token built from signed decimal tick components, such as `5min`,
`min`, `1h30min` (90 minutes) or `2.5min` (150 seconds); `none` is every
token the tokenizer, the alias table, the offset addition or a `Timedelta`
bound rejects. -/
def parseFreqNs (cs : List Char) : Option Int :=
  parseCompsNs (cs.length + 1) 0 cs

/-- `build_grid_utc(cal, start_utc, end_utc, grid)`: session closes for the
session tokens; for a `min`-suffixed token the parsed frequency drives
`pd.date_range` over each session — a zero step raises (the offset does not
increment the date) as soon as one session exists, a negative step just
yields empty per-session ranges — and a `min`-suffixed token the frequency
grammar rejects raises an invalid-frequency error; any other token raises
`ValueError` with the unsupported grid spec. -/
def build_grid_utc (cal : TradingCalendar) (s e : Int) (grid : String) :
    Except String (List Int) :=
  let g := toLowerL grid.toList
  if g = "b".toList || g = "sessions".toList || g = "daily".toList then
    .ok (sortInts ((bdateRange (s / 86400000000000) (e / 86400000000000)).map
      (fun d => session_close_utc cal d)))
  else if endsWithMin g then
    match parseFreqNs g with
    | some n =>
      if n = 0 ∧ bdateRange (s / 86400000000000) (e / 86400000000000) ≠ [] then
        .error "Offset did not increment date"
      else .ok (trading_minutes_utc cal s e n)
    | none => .error ("Invalid frequency: " ++ grid)
  else .error ("Unsupported grid spec: " ++ grid)

/-- The claim's notion of a supported token: a session-close token or a
`min`-suffixed token the `to_offset` frequency grammar accepts. -/
def SupportedGrid (grid : String) : Bool :=
  let g := toLowerL grid.toList
  g = "b".toList || g = "sessions".toList || g = "daily".toList ||
    (endsWithMin g && (parseFreqNs g).isSome)

theorem pairwise_foldl_insertAsc (l : List Int) (acc : List Int)
    (h : acc.Pairwise (· < ·)) :
    (l.foldl (fun acc x => PIT.insertAsc x acc) acc).Pairwise (· < ·) := by
  induction l generalizing acc with
  | nil => simpa using h
  | cons x xs ih => exact ih _ (PIT.pairwise_insertAsc h)

theorem sortDedupInts_pairwise (l : List Int) :
    (sortDedupInts l).Pairwise (· < ·) :=
  pairwise_foldl_insertAsc l [] List.Pairwise.nil

theorem sortInts_eq_of_sorted : ∀ {l : List Int},
    l.Pairwise (· ≤ ·) → sortInts l = l := by
  intro l
  induction l with
  | nil => intro _; rfl
  | cons x xs ih =>
    intro h
    rcases List.pairwise_cons.mp h with ⟨hx, hxs⟩
    show insertLeInt x (sortInts xs) = x :: xs
    rw [ih hxs]
    cases xs with
    | nil => rfl
    | cons y ys =>
      rw [insertLeInt, if_pos (hx y (List.mem_cons_self y ys))]

theorem rangePts_pairwise (o c n : Int) (hn : 0 < n) :
    (rangePts o c n).Pairwise (· < ·) := by
  rw [rangePts, List.pairwise_map]
  refine (List.pairwise_lt_range _).imp ?_
  intro a b hab
  have : (a : Int) + 1 < (b : Int) + 1 := by omega
  have := mul_lt_mul_of_pos_left this hn
  omega

theorem rangePts_eq_nil (o c n : Int) (hn : n ≤ 0) (hc : o ≤ c) :
    rangePts o c n = [] := by
  have h1 : (c - o) / n ≤ 0 := by
    rcases lt_or_eq_of_le hn with h0 | h0
    · exact Int.ediv_nonpos (by omega) (le_of_lt h0)
    · rw [h0]
      simp
  rw [rangePts, Int.toNat_of_nonpos h1]
  rfl

theorem rangePts_pairwise_of_le (o c n : Int) (hc : o ≤ c) :
    (rangePts o c n).Pairwise (· < ·) := by
  rcases le_or_lt n 0 with hn | hn
  · rw [rangePts_eq_nil o c n hn hc]
    exact List.Pairwise.nil
  · exact rangePts_pairwise o c n hn

theorem bdateRange_pairwise (s e : Int) :
    (bdateRange s e).Pairwise (· < ·) := by
  rw [bdateRange]
  refine List.Pairwise.filter _ ?_
  rw [List.pairwise_map]
  refine (List.pairwise_lt_range _).imp ?_
  intro a b hab
  omega

theorem localMidnight_eq (cal : TradingCalendar) (d : Int)
    (h : |cal.off d| ≤ 50400000000000) :
    localMidnight cal d =
      if 0 ≤ cal.off d then 86400000000000 * d - cal.off d
      else 86400000000000 * (d - 1) - cal.off d := by
  have hb := abs_le.mp h
  rw [localMidnight]
  by_cases h0 : 0 ≤ cal.off d
  · rw [if_pos h0]
    have hq : (86400000000000 * d + cal.off d) / 86400000000000 = d := by
      omega
    rw [hq]
  · rw [if_neg h0]
    have hq : (86400000000000 * d + cal.off d) / 86400000000000 = d - 1 := by
      omega
    rw [hq]

theorem session_close_lt_succ (cal : TradingCalendar)
    (hB : ∀ d, |cal.off d| ≤ 50400000000000)
    (hS : ∀ d, |cal.off (d + 1) - cal.off d| ≤ 10800000000000) (d : Int) :
    session_close_utc cal d < session_close_utc cal (d + 1) := by
  have h1 := localMidnight_eq cal d (hB d)
  have h2 := localMidnight_eq cal (d + 1) (hB (d + 1))
  have hb1 := abs_le.mp (hB d)
  have hb2 := abs_le.mp (hB (d + 1))
  have hs := abs_le.mp (hS d)
  rw [session_close_utc, session_close_utc, h1, h2]
  split_ifs <;> omega

theorem session_close_strictMono (cal : TradingCalendar)
    (hB : ∀ d, |cal.off d| ≤ 50400000000000)
    (hS : ∀ d, |cal.off (d + 1) - cal.off d| ≤ 10800000000000) :
    StrictMono (fun d => session_close_utc cal d) :=
  strictMono_int_of_lt_succ (session_close_lt_succ cal hB hS)

theorem trading_minutes_pairwise (cal : TradingCalendar) (s e n : Int) :
    (trading_minutes_utc cal s e n).Pairwise (· < ·) := by
  rw [trading_minutes_utc]
  have hpieces : ∀ p ∈ (bdateRange (s / 86400000000000)
      (e / 86400000000000)).filterMap (fun d =>
      let r := rangePts (session_open_utc cal d) (session_close_utc cal d) n
      if r = [] then none
      else some (r.filter (fun x => s ≤ x && x ≤ e))),
      p.Pairwise (· < ·) := by
    intro p hp
    rw [List.mem_filterMap] at hp
    obtain ⟨d, _, hpd⟩ := hp
    simp only at hpd
    by_cases hr : rangePts (session_open_utc cal d) (session_close_utc cal d)
        n = []
    · rw [if_pos hr] at hpd
      cases hpd
    · rw [if_neg hr] at hpd
      cases hpd
      exact List.Pairwise.filter _ (rangePts_pairwise_of_le _ _ _
        (by rw [session_open_utc, session_close_utc]; omega))
  rcases hp2 : (bdateRange (s / 86400000000000) (e / 86400000000000)).filterMap
      (fun d =>
      let r := rangePts (session_open_utc cal d) (session_close_utc cal d) n
      if r = [] then none
      else some (r.filter (fun x => s ≤ x && x ≤ e))) with _ | ⟨p, _ | ⟨q, rest⟩⟩
  · exact List.Pairwise.nil
  · exact hpieces p (by rw [hp2]; exact List.mem_cons_self _ _)
  · exact sortDedupInts_pairwise _

/-- C7. Grid invariant: every successfully built grid — session closes or a
`min`-suffixed intraday frequency grid — is strictly increasing (hence
duplicate-free; all instants are UTC nanoseconds by construction of the
embedding), under the physical timezone bounds (offsets within ±14h,
day-to-day offset changes within 3h); a token that is neither a session
token nor a `min`-suffixed token accepted by the frequency grammar fails
with an input error. -/
theorem C7_grid_invariant (cal : TradingCalendar) (s e : Int) (grid : String)
    (hB : ∀ d, |cal.off d| ≤ 50400000000000)
    (hS : ∀ d, |cal.off (d + 1) - cal.off d| ≤ 10800000000000) :
    (∀ l, build_grid_utc cal s e grid = .ok l → l.Pairwise (· < ·)) ∧
    (SupportedGrid grid = false →
      ∃ err, build_grid_utc cal s e grid = .error err) := by
  constructor
  · intro l hl
    rw [build_grid_utc] at hl
    split_ifs at hl with h1 h2
    · -- session-close branch
      have hcloses : ((bdateRange (s / 86400000000000)
          (e / 86400000000000)).map
          (fun d => session_close_utc cal d)).Pairwise (· < ·) := by
        rw [List.pairwise_map]
        exact (bdateRange_pairwise _ _).imp
          (fun hab => session_close_strictMono cal hB hS hab)
      rw [sortInts_eq_of_sorted (hcloses.imp le_of_lt)] at hl
      cases hl
      exact hcloses
    · -- intraday branch
      rcases hp : parseFreqNs (toLowerL grid.toList) with _ | n
      · simp only [hp] at hl
        cases hl
      · simp only [hp] at hl
        split_ifs at hl with hz
        cases hl
        exact trading_minutes_pairwise cal s e n
  · intro hsup
    rw [SupportedGrid] at hsup
    rw [build_grid_utc]
    split_ifs with h1 h2
    · rw [h1] at hsup
      simp at hsup
    · rcases hp : parseFreqNs (toLowerL grid.toList) with _ | n
      · exact ⟨_, rfl⟩
      · exfalso
        rw [Bool.or_eq_false_iff, Bool.or_eq_false_iff, Bool.or_eq_false_iff,
          Bool.and_eq_false_iff] at hsup
        rcases hsup.2 with hc | hc
        · rw [h2] at hc
          cases hc
        · rw [hp] at hc
          simp at hc
    · exact ⟨_, rfl⟩

/-- A winter-offset New-York-style calendar (UTC−5, constant), for the
witness. -/
def calNY : TradingCalendar := ⟨"XNYS", fun _ => -18000000000000⟩

/-- C7 witness: the physical bounds hold for the concrete calendar; the
session grid over 1970-01-01..06 evaluates to four strictly increasing
closes; the compound token `1h30min` builds the four 90-minute marks of the
Friday session, strictly increasing; `2.5min` parses to 150 seconds and
`-5min` builds an empty grid rather than erroring; `0min` raises once a
session exists; the grammar-rejected `7xmin` and the unsupported
`fortnight` fail. -/
theorem C7_grid_invariant_witness :
    build_grid_utc calNY 0 (86400000000000 * 5) "sessions" =
      .ok [-10800000000000, 75600000000000, 334800000000000,
        421200000000000] ∧
    ([-10800000000000, 75600000000000, 334800000000000,
      421200000000000] : List Int).Pairwise (· < ·) ∧
    build_grid_utc calNY 0 86400000000000 "1h30min" =
      .ok [57600000000000, 63000000000000, 68400000000000,
        73800000000000] ∧
    ([57600000000000, 63000000000000, 68400000000000,
      73800000000000] : List Int).Pairwise (· < ·) ∧
    parseFreqNs (toLowerL "2.5min".toList) = some 150000000000 ∧
    build_grid_utc calNY 0 (86400000000000 * 5) "-5min" = .ok [] ∧
    build_grid_utc calNY 0 0 "0min" =
      .error "Offset did not increment date" ∧
    SupportedGrid "7xmin" = false ∧
    (∃ err, build_grid_utc calNY 0 86400000000000 "7xmin" = .error err) ∧
    SupportedGrid "fortnight" = false ∧
    (∃ err, build_grid_utc calNY 0 (86400000000000 * 5) "fortnight" =
      .error err) :=
  ⟨by decide,
   (C7_grid_invariant calNY 0 (86400000000000 * 5) "sessions"
       (fun d => by norm_num [calNY]) (fun d => by norm_num [calNY])).1
     [-10800000000000, 75600000000000, 334800000000000, 421200000000000]
     (by decide),
   by decide,
   (C7_grid_invariant calNY 0 86400000000000 "1h30min"
       (fun d => by norm_num [calNY]) (fun d => by norm_num [calNY])).1
     [57600000000000, 63000000000000, 68400000000000, 73800000000000]
     (by decide),
   by decide,
   by decide,
   by decide,
   by decide,
   (C7_grid_invariant calNY 0 86400000000000 "7xmin"
       (fun d => by norm_num [calNY]) (fun d => by norm_num [calNY])).2
     (by decide),
   by decide,
   (C7_grid_invariant calNY 0 (86400000000000 * 5) "fortnight"
       (fun d => by norm_num [calNY]) (fun d => by norm_num [calNY])).2
     (by decide)⟩

end Grids

namespace Fp

/-!
Embedding of `FeatureRealization.id` and `_stable_json`
(`src/alphaforge/features/realization.py`).  `_stable_json` is
`json.dumps(payload, sort_keys=True, default=str, separators=(",", ":"))`:
object keys appear in sorted order with compact separators, strings are
escaped as by the default (`ensure_ascii`) encoder.  The payload's fields are
modelled at the type the `id()` method produces: `str(...)`-converted slice
bounds are strings, optional members are `Option` (`None → null`), `params`
is the dict as a key-sorted association list with string values.  The
SHA-256 of the serialization is an opaque parameter `hash`; `id()` truncates
its hex digest to 16 characters behind the `template:version:` prefix. -/

structure SliceSpec where
  start : String
  stop : String
  entities : Option (List String)
  asof : Option String
  grid : Option String
  deriving DecidableEq, Repr

structure FeatureRealization where
  template : String
  version : String
  params : List (String × String)
  slice : SliceSpec
  upstream_snapshot : Option String := none
  deriving DecidableEq, Repr

def hexDigit (n : Nat) : Char :=
  if n < 10 then Char.ofNat (48 + n) else Char.ofNat (87 + n)

def hex4 (n : Nat) : List Char :=
  [hexDigit (n / 4096 % 16), hexDigit (n / 256 % 16),
   hexDigit (n / 16 % 16), hexDigit (n % 16)]

/-- The default (`ensure_ascii`) `json.dumps` escaping of one character:
backslash, quote and the short control escapes specially, any other
character outside printable ASCII as `\uXXXX` (surrogate pairs beyond the
BMP), printable ASCII verbatim. -/
def escapeChar (c : Char) : List Char :=
  if c = '\\' then ['\\', '\\']
  else if c = '"' then ['\\', '"']
  else if c = '\n' then ['\\', 'n']
  else if c = '\r' then ['\\', 'r']
  else if c = '\t' then ['\\', 't']
  else if c.toNat = 8 then ['\\', 'b']
  else if c.toNat = 12 then ['\\', 'f']
  else if 32 ≤ c.toNat && c.toNat ≤ 126 then [c]
  else if c.toNat < 65536 then '\\' :: 'u' :: hex4 c.toNat
  else
    ('\\' :: 'u' :: hex4 (55296 + (c.toNat - 65536) / 1024)) ++
      ('\\' :: 'u' :: hex4 (56320 + (c.toNat - 65536) % 1024))

def escapeL (s : List Char) : List Char := s.flatMap escapeChar

/-- A JSON string literal. -/
def encStr (s : String) : List Char := '"' :: (escapeL s.data ++ ['"'])

/-- An optional string: `null` or a string literal. -/
def encOptStr : Option String → List Char
  | none => "null".toList
  | some s => encStr s

/-- Comma-joined encodings (no brackets). -/
def encJoin {α : Type} (f : α → List Char) : List α → List Char
  | [] => []
  | [x] => f x
  | x :: xs => f x ++ (',' :: encJoin f xs)

/-- A JSON array of strings. -/
def encList (l : List String) : List Char :=
  '[' :: (encJoin encStr l ++ [']'])

def encOptList : Option (List String) → List Char
  | none => "null".toList
  | some l => encList l

/-- One `"key":"value"` member of the params object. -/
def encPair (p : String × String) : List Char :=
  encStr p.1 ++ (':' :: encStr p.2)

/-- The params dict (keys already in sorted order). -/
def encParams (l : List (String × String)) : List Char :=
  '\x7b' :: (encJoin encPair l ++ ['\x7d'])

/-- The slice sub-object, keys in sorted order
(`asof, end, entities, grid, start`). -/
def encSlice (s : SliceSpec) : List Char :=
  "\x7b\"asof\":".toList ++ (encOptStr s.asof ++
    (",\"end\":".toList ++ (encStr s.stop ++
      (",\"entities\":".toList ++ (encOptList s.entities ++
        (",\"grid\":".toList ++ (encOptStr s.grid ++
          (",\"start\":".toList ++ (encStr s.start ++ ['\x7d'])))))))))

/-- The payload object of `FeatureRealization.id`, keys in sorted order
(`params, slice, template, upstream_snapshot, version`). -/
def payloadJson (r : FeatureRealization) : List Char :=
  "\x7b\"params\":".toList ++ (encParams r.params ++
    (",\"slice\":".toList ++ (encSlice r.slice ++
      (",\"template\":".toList ++ (encStr r.template ++
        (",\"upstream_snapshot\":".toList ++ (encOptStr r.upstream_snapshot ++
          (",\"version\":".toList ++ (encStr r.version ++ ['\x7d'])))))))))

/-- `_stable_json(payload)`. -/
def stableJson (r : FeatureRealization) : String := ⟨payloadJson r⟩

/-- `FeatureRealization.id()`, with the SHA-256 hex digest abstracted as
`hash`: the template and version prefix the truncated digest of the stable
serialization. -/
def rid (hash : String → String) (r : FeatureRealization) : String :=
  r.template ++ ":" ++ r.version ++ ":" ++ (hash (stableJson r)).take 16

/-- Strings whose characters are printable ASCII (no escaping beyond quote
and backslash needed). -/
def PrintableAscii (s : String) : Prop :=
  ∀ c ∈ s.data, 32 ≤ c.toNat ∧ c.toNat ≤ 126

def POpt : Option String → Prop
  | none => True
  | some s => PrintableAscii s

def POptList : Option (List String) → Prop
  | none => True
  | some l => ∀ e ∈ l, PrintableAscii e

def WFSlice (s : SliceSpec) : Prop :=
  PrintableAscii s.start ∧ PrintableAscii s.stop ∧
    POptList s.entities ∧ POpt s.asof ∧ POpt s.grid

instance (s : String) : Decidable (PrintableAscii s) := by
  unfold PrintableAscii; infer_instance

instance : ∀ o : Option String, Decidable (POpt o)
  | none => .isTrue trivial
  | some s => inferInstanceAs (Decidable (PrintableAscii s))

instance : ∀ o : Option (List String), Decidable (POptList o)
  | none => .isTrue trivial
  | some l => inferInstanceAs (Decidable (∀ e ∈ l, PrintableAscii e))

instance (s : SliceSpec) : Decidable (WFSlice s) := by
  unfold WFSlice; infer_instance

/-- Well-formed realization: printable-ASCII strings throughout and the
params dict in canonical (strictly key-sorted) form. -/
def WFReal (r : FeatureRealization) : Prop :=
  PrintableAscii r.template ∧ PrintableAscii r.version ∧
    r.params.Pairwise (fun a b => a.1 < b.1) ∧
    (∀ p ∈ r.params, PrintableAscii p.1 ∧ PrintableAscii p.2) ∧
    WFSlice r.slice ∧ POpt r.upstream_snapshot

instance (r : FeatureRealization) : Decidable (WFReal r) := by
  unfold WFReal; infer_instance

/-- Proof apparatus: a reference JSON-string reader used only to establish
that `encStr` is cancellative (it is never part of the embedding itself). -/
def decStrAux : List Char → Option (List Char × List Char)
  | [] => none
  | c :: rest =>
    if c = '\\' then
      match rest with
      | [] => none
      | e :: rest2 =>
        if e = '\\' || e = '"' then
          (decStrAux rest2).map (fun p => (e :: p.1, p.2))
        else none
    else if c = '"' then some ([], rest)
    else (decStrAux rest).map (fun p => (c :: p.1, p.2))

def decStr : List Char → Option (List Char × List Char)
  | [] => none
  | c :: rest => if c = '"' then decStrAux rest else none

theorem escapeChar_printable {c : Char} (h1 : 32 ≤ c.toNat) (h2 : c.toNat ≤ 126)
    (hb : ¬ c = '\\') (hq : ¬ c = '"') : escapeChar c = [c] := by
  have hn : ¬ c = '\n' := fun h => by rw [h] at h1; exact absurd h1 (by decide)
  have hr : ¬ c = '\r' := fun h => by rw [h] at h1; exact absurd h1 (by decide)
  have ht : ¬ c = '\t' := fun h => by rw [h] at h1; exact absurd h1 (by decide)
  have h8 : ¬ c.toNat = 8 := by omega
  have h12 : ¬ c.toNat = 12 := by omega
  rw [escapeChar, if_neg hb, if_neg hq, if_neg hn, if_neg hr, if_neg ht,
    if_neg h8, if_neg h12, if_pos (by simp [h1, h2])]

theorem decStrAux_round : ∀ (s : List Char) (rest : List Char),
    (∀ c ∈ s, 32 ≤ c.toNat ∧ c.toNat ≤ 126) →
    decStrAux (escapeL s ++ '"' :: rest) = some (s, rest) := by
  intro s
  induction s with
  | nil =>
    intro rest _
    show decStrAux ([] ++ '"' :: rest) = _
    rw [List.nil_append, decStrAux.eq_def]
    simp
  | cons c cs ih =>
    intro rest h
    have hc := h c (List.mem_cons_self c cs)
    have hcs : ∀ x ∈ cs, 32 ≤ x.toNat ∧ x.toNat ≤ 126 :=
      fun x hx => h x (List.mem_cons_of_mem _ hx)
    have hflat : escapeL (c :: cs) = escapeChar c ++ escapeL cs := by
      simp [escapeL]
    by_cases hb : c = '\\'
    · subst hb
      have he : escapeChar '\\' = ['\\', '\\'] := by rw [escapeChar, if_pos rfl]
      rw [hflat, he]
      simp only [List.cons_append, List.nil_append, List.append_assoc]
      rw [decStrAux.eq_def]
      simp [ih rest hcs]
    · by_cases hq : c = '"'
      · subst hq
        have he : escapeChar '"' = ['\\', '"'] := by
          rw [escapeChar, if_neg (by decide), if_pos rfl]
        rw [hflat, he]
        simp only [List.cons_append, List.nil_append, List.append_assoc]
        rw [decStrAux.eq_def]
        simp [ih rest hcs]
      · have he : escapeChar c = [c] := escapeChar_printable hc.1 hc.2 hb hq
        rw [hflat, he]
        simp only [List.cons_append, List.nil_append, List.append_assoc]
        rw [decStrAux.eq_def]
        simp [hb, hq, ih rest hcs]

theorem decStr_round (s : String) (rest : List Char) (h : PrintableAscii s) :
    decStr (encStr s ++ rest) = some (s.data, rest) := by
  rw [encStr]
  simp only [List.cons_append, List.append_assoc, List.singleton_append, decStr]
  simp only [if_true, List.nil_append]
  exact decStrAux_round s.data rest h

theorem encStr_cancel {s1 s2 : String} {r1 r2 : List Char}
    (h1 : PrintableAscii s1) (h2 : PrintableAscii s2)
    (he : encStr s1 ++ r1 = encStr s2 ++ r2) : s1 = s2 ∧ r1 = r2 := by
  have := (decStr_round s1 r1 h1).symm.trans
    ((congrArg decStr he).trans (decStr_round s2 r2 h2))
  simp only [Option.some.injEq, Prod.mk.injEq] at this
  obtain ⟨hd, hr⟩ := this
  refine ⟨?_, hr⟩
  cases s1
  cases s2
  exact congrArg String.mk hd

theorem encStr_head (s : String) : ∃ t, encStr s = '"' :: t := ⟨_, rfl⟩

theorem encOptStr_cancel {o1 o2 : Option String} {r1 r2 : List Char}
    (h1 : POpt o1) (h2 : POpt o2)
    (he : encOptStr o1 ++ r1 = encOptStr o2 ++ r2) : o1 = o2 ∧ r1 = r2 := by
  cases o1 <;> cases o2
  · simp only [encOptStr] at he
    exact ⟨rfl, List.append_cancel_left he⟩
  · rename_i s2
    obtain ⟨t, ht⟩ := encStr_head s2
    rw [encOptStr, encOptStr, ht] at he
    cases he
  · rename_i s1
    obtain ⟨t, ht⟩ := encStr_head s1
    rw [encOptStr, encOptStr, ht] at he
    cases he
  · rename_i s1 s2
    rw [encOptStr, encOptStr] at he
    obtain ⟨hs, hr⟩ := encStr_cancel h1 h2 he
    exact ⟨by rw [hs], hr⟩

theorem encJoin_cons {α : Type} (f : α → List Char) (x : α) (xs : List α) :
    encJoin f (x :: xs) = f x ++
      (match xs with
       | [] => []
       | _ :: _ => ',' :: encJoin f xs) := by
  cases xs with
  | nil => simp [encJoin]
  | cons y ys => rfl

/-- Comma-joined sequences of quote-headed, cancellative encodings are
cancellative before a closing delimiter that is neither a quote nor a
comma. -/
theorem encJoin_cancel {α : Type} (f : α → List Char) (P : α → Prop)
    (close : Char)
    (hstart : ∀ a : α, ∃ t, f a = '"' :: t)
    (hcancel : ∀ (a b : α) (r1 r2 : List Char), P a → P b →
      f a ++ r1 = f b ++ r2 → a = b ∧ r1 = r2)
    (hc1 : ¬ close = '"') (hc2 : ¬ close = ',') :
    ∀ {l1 l2 : List α} {r1 r2 : List Char},
      (∀ a ∈ l1, P a) → (∀ a ∈ l2, P a) →
      encJoin f l1 ++ close :: r1 = encJoin f l2 ++ close :: r2 →
      l1 = l2 ∧ r1 = r2 := by
  intro l1
  induction l1 with
  | nil =>
    intro l2 r1 r2 _ hp2 he
    cases l2 with
    | nil =>
      simp only [encJoin, List.nil_append, List.cons.injEq] at he
      exact ⟨rfl, he.2⟩
    | cons y ys =>
      obtain ⟨t, ht⟩ := hstart y
      rw [encJoin_cons, ht] at he
      simp only [encJoin, List.nil_append, List.cons_append, List.cons.injEq] at he
      exact absurd he.1 hc1
  | cons x xs ih =>
    intro l2 r1 r2 hp1 hp2 he
    cases l2 with
    | nil =>
      obtain ⟨t, ht⟩ := hstart x
      rw [encJoin_cons, ht] at he
      simp only [encJoin, List.nil_append, List.cons_append, List.cons.injEq] at he
      exact absurd he.1.symm hc1
    | cons y ys =>
      rw [encJoin_cons, encJoin_cons, List.append_assoc, List.append_assoc] at he
      obtain ⟨hxy, he2⟩ := hcancel x y _ _
        (hp1 x (List.mem_cons_self x xs)) (hp2 y (List.mem_cons_self y ys)) he
      subst hxy
      cases xs with
      | nil =>
        cases ys with
        | nil =>
          simp only [List.nil_append, List.cons.injEq] at he2
          exact ⟨rfl, he2.2⟩
        | cons z zs =>
          simp only [List.nil_append, List.cons_append, List.cons.injEq] at he2
          exact absurd he2.1 hc2
      | cons w ws =>
        cases ys with
        | nil =>
          simp only [List.nil_append, List.cons_append, List.cons.injEq] at he2
          exact absurd he2.1.symm hc2
        | cons z zs =>
          simp only [List.cons_append, List.cons.injEq] at he2
          obtain ⟨hl, hr⟩ := ih
            (fun a ha => hp1 a (List.mem_cons_of_mem _ ha))
            (fun a ha => hp2 a (List.mem_cons_of_mem _ ha)) he2.2
          exact ⟨by rw [hl], hr⟩

theorem encPair_head (p : String × String) : ∃ t, encPair p = '"' :: t :=
  ⟨_, rfl⟩

theorem encPair_cancel (a b : String × String) (r1 r2 : List Char)
    (ha : PrintableAscii a.1 ∧ PrintableAscii a.2)
    (hb : PrintableAscii b.1 ∧ PrintableAscii b.2)
    (he : encPair a ++ r1 = encPair b ++ r2) : a = b ∧ r1 = r2 := by
  rw [encPair, encPair] at he
  simp only [List.append_assoc, List.cons_append] at he
  obtain ⟨h1, he2⟩ := encStr_cancel ha.1 hb.1 he
  simp only [List.cons.injEq] at he2
  obtain ⟨h2, hr⟩ := encStr_cancel ha.2 hb.2 he2.2
  exact ⟨Prod.ext h1 h2, hr⟩

theorem encList_cancel {l1 l2 : List String} {r1 r2 : List Char}
    (h1 : ∀ s ∈ l1, PrintableAscii s) (h2 : ∀ s ∈ l2, PrintableAscii s)
    (he : encList l1 ++ r1 = encList l2 ++ r2) : l1 = l2 ∧ r1 = r2 := by
  rw [encList, encList] at he
  simp only [List.cons_append, List.append_assoc, List.singleton_append,
    List.cons.injEq] at he
  exact encJoin_cancel encStr PrintableAscii ']' encStr_head
    (fun a b s1 s2 pa pb => encStr_cancel pa pb)
    (by decide) (by decide) h1 h2 he.2

theorem encOptList_cancel {o1 o2 : Option (List String)} {r1 r2 : List Char}
    (h1 : POptList o1) (h2 : POptList o2)
    (he : encOptList o1 ++ r1 = encOptList o2 ++ r2) : o1 = o2 ∧ r1 = r2 := by
  cases o1 <;> cases o2
  · simp only [encOptList] at he
    exact ⟨rfl, List.append_cancel_left he⟩
  · rename_i l2
    rw [encOptList, encOptList, encList] at he
    cases he
  · rename_i l1
    rw [encOptList, encOptList, encList] at he
    cases he
  · rename_i l1 l2
    rw [encOptList, encOptList] at he
    obtain ⟨hl, hr⟩ := encList_cancel h1 h2 he
    exact ⟨by rw [hl], hr⟩

theorem encParams_cancel {l1 l2 : List (String × String)} {r1 r2 : List Char}
    (h1 : ∀ p ∈ l1, PrintableAscii p.1 ∧ PrintableAscii p.2)
    (h2 : ∀ p ∈ l2, PrintableAscii p.1 ∧ PrintableAscii p.2)
    (he : encParams l1 ++ r1 = encParams l2 ++ r2) : l1 = l2 ∧ r1 = r2 := by
  rw [encParams, encParams] at he
  simp only [List.cons_append, List.append_assoc, List.singleton_append,
    List.cons.injEq] at he
  exact encJoin_cancel encPair (fun p => PrintableAscii p.1 ∧ PrintableAscii p.2)
    '\x7d' encPair_head encPair_cancel (by decide) (by decide) h1 h2 he.2

theorem encSlice_cancel {s1 s2 : SliceSpec} {r1 r2 : List Char}
    (h1 : WFSlice s1) (h2 : WFSlice s2)
    (he : encSlice s1 ++ r1 = encSlice s2 ++ r2) : s1 = s2 ∧ r1 = r2 := by
  obtain ⟨h1s, h1e, h1l, h1a, h1g⟩ := h1
  obtain ⟨h2s, h2e, h2l, h2a, h2g⟩ := h2
  rw [encSlice, encSlice] at he
  simp only [List.append_assoc, List.singleton_append] at he
  have e1 := List.append_cancel_left he
  obtain ⟨ha, e2⟩ := encOptStr_cancel h1a h2a e1
  have e3 := List.append_cancel_left e2
  obtain ⟨hstop, e4⟩ := encStr_cancel h1e h2e e3
  have e5 := List.append_cancel_left e4
  obtain ⟨hl, e6⟩ := encOptList_cancel h1l h2l e5
  have e7 := List.append_cancel_left e6
  obtain ⟨hg, e8⟩ := encOptStr_cancel h1g h2g e7
  have e9 := List.append_cancel_left e8
  obtain ⟨hstart, e10⟩ := encStr_cancel h1s h2s e9
  simp only [List.cons.injEq] at e10
  cases s1
  cases s2
  simp only at ha hstop hl hg hstart
  subst ha hstop hl hg hstart
  exact ⟨rfl, e10.2⟩

theorem payload_inj {r1 r2 : FeatureRealization}
    (h1 : WFReal r1) (h2 : WFReal r2)
    (he : payloadJson r1 = payloadJson r2) : r1 = r2 := by
  obtain ⟨h1t, h1v, _, h1p, h1sl, h1u⟩ := h1
  obtain ⟨h2t, h2v, _, h2p, h2sl, h2u⟩ := h2
  rw [payloadJson, payloadJson] at he
  have e1 := List.append_cancel_left he
  obtain ⟨hp, e2⟩ := encParams_cancel h1p h2p e1
  have e3 := List.append_cancel_left e2
  obtain ⟨hsl, e4⟩ := encSlice_cancel h1sl h2sl e3
  have e5 := List.append_cancel_left e4
  obtain ⟨ht, e6⟩ := encStr_cancel h1t h2t e5
  have e7 := List.append_cancel_left e6
  obtain ⟨hu, e8⟩ := encOptStr_cancel h1u h2u e7
  have e9 := List.append_cancel_left e8
  obtain ⟨hv, _⟩ := encStr_cancel h1v h2v e9
  cases r1
  cases r2
  simp only at hp hsl ht hu hv
  subst hp hsl ht hu hv
  rfl

theorem stableJson_inj {r1 r2 : FeatureRealization}
    (h1 : WFReal r1) (h2 : WFReal r2)
    (he : stableJson r1 = stableJson r2) : r1 = r2 := by
  refine payload_inj h1 h2 ?_
  rw [stableJson, stableJson] at he
  exact congrArg String.data he

set_option maxHeartbeats 1000000 in
/-- C9. Fingerprint stability: `id()` is a pure function of the realization's
fields (two-run equality); for well-formed realizations the stable
serialization is injective, so any field change changes the hashed payload;
whenever the truncated digests of two (necessarily distinct) serializations
differ, the ids differ; and the id is exactly the template and version
followed by the truncated digest of the stable serialization. -/
theorem C9_fingerprint_stability :
    (∀ (hash : String → String) (r1 r2 : FeatureRealization), r1 = r2 →
      rid hash r1 = rid hash r2) ∧
    (∀ r1 r2 : FeatureRealization, WFReal r1 → WFReal r2 → r1 ≠ r2 →
      stableJson r1 ≠ stableJson r2) ∧
    (∀ (hash : String → String) (r1 r2 : FeatureRealization),
      ((hash (stableJson r1)).take 16).length =
        ((hash (stableJson r2)).take 16).length →
      (hash (stableJson r1)).take 16 ≠ (hash (stableJson r2)).take 16 →
      rid hash r1 ≠ rid hash r2) ∧
    (∀ (hash : String → String) (r : FeatureRealization),
      rid hash r = r.template ++ ":" ++ r.version ++ ":" ++
        (hash (stableJson r)).take 16) := by
  refine ⟨?_, ?_, ?_, ?_⟩
  · intro hash r1 r2 h
    rw [h]
  · intro r1 r2 h1 h2 hne he
    exact hne (stableJson_inj h1 h2 he)
  · intro hash r1 r2 hlen hne he
    rw [rid, rid] at he
    revert hlen hne he
    generalize (hash (stableJson r1)).take 16 = t1
    generalize (hash (stableJson r2)).take 16 = t2
    intro hlen hne he
    have hdata := congrArg String.data he
    rw [String.data_append, String.data_append] at hdata
    have hlen' : t1.data.length = t2.data.length := hlen
    obtain ⟨_, htail⟩ := List.append_inj' hdata hlen'
    exact hne (String.ext htail)
  · intro hash r
    rfl

/-- Concrete realizations and a concrete digest function for the witness:
two realizations identical except for one parameter value. -/
def sliceW : SliceSpec :=
  ⟨"2020-01-01 00:00:00", "2020-01-02 00:00:00", some ["AAA"], none,
   some "sessions:XNYS"⟩

def realW1 : FeatureRealization := ⟨"counting", "1.0", [("p", "7")], sliceW, none⟩

def realW2 : FeatureRealization := ⟨"counting", "1.0", [("p", "8")], sliceW, none⟩

def hashW (s : String) : String :=
  if s = stableJson realW1 then "aaaaaaaaaaaaaaaaaaaa" else "bbbbbbbbbbbbbbbbbbbb"

set_option maxRecDepth 8000 in
/-- C9 witness: the serialization-injectivity and id-distinctness parts
applied to two concrete realizations differing in one parameter. -/
theorem C9_fingerprint_stability_witness :
    WFReal realW1 ∧ WFReal realW2 ∧ realW1 ≠ realW2 ∧
      stableJson realW1 ≠ stableJson realW2 ∧
      rid hashW realW1 ≠ rid hashW realW2 :=
  ⟨by decide, by decide, by decide,
   C9_fingerprint_stability.2.1 realW1 realW2 (by decide) (by decide)
     (by decide),
   C9_fingerprint_stability.2.2.1 hashW realW1 realW2 (by decide) (by decide)⟩

end Fp
